import Mathlib

/-!
Verification of the rename-cascade subsystem of cloud-provider-openstack
(`lbHasOldClusterName`, `decomposeLBName`, `replaceClusterName`,
`renameLoadBalancer`) and of `splitExportLocation` from the manila share
backends, via a shallow embedding.  Strings are modelled as `List Char`
(Go strings; all names involved are ASCII).
-/

set_option autoImplicit false

abbrev Str := List Char

/-- The field separator in encoded resource names (`_` in the source). -/
def sep : Char := '_'

/-- Modelled from the spec: the literal OCCM service prefix constant
(`servicePrefix`), whose defining declaration is not under `src/`;
value taken from §8 Scenario 1 (`kube_service_clusterA_ns1_svc1`). -/
def servicePfx : Str := "kube_service_".toList

/-- Modelled from the spec: the listener resource-kind prefix constant
(`listenerPrefix`), whose defining declaration is not under `src/`. -/
def listenerPfx : Str := "listener_".toList

/-- Modelled from the spec: the pool resource-kind prefix constant
(`poolPrefix`), whose defining declaration is not under `src/`. -/
def poolPfx : Str := "pool_".toList

/-- Modelled from the spec: the monitor resource-kind prefix constant
(`monitorPrefix`), whose defining declaration is not under `src/`. -/
def monitorPfx : Str := "monitor_".toList

/-- The two shapes of `resourcePrefix` regex fragment passed to
`decomposeLBName` in the source: the empty fragment, or
`lit ++ "[0-9]+_"` (the shared-listener numeric disambiguator). -/
inductive ResPfx where
  | plain : ResPfx
  | numbered : Str → ResPfx
deriving DecidableEq, Repr

def isDigit (c : Char) : Bool := '0' ≤ c && c ≤ '9'

/-- Strip the literal `p` from the front of `l`, if present. -/
def stripLit (p l : Str) : Option Str :=
  if p.isPrefixOf l then some (l.drop p.length) else none

/-- Match the prefix part of the `decomposeLBName` regex
(`resourcePrefix` followed by `servicePrefix`) at the head of `l`,
returning the remainder.  For `numbered lit` this is
`lit ++ [0-9]+ ++ "_" ++ servicePrefix`; the greedy `[0-9]+` is
deterministic because the following character must be `'_'`,
which is not a digit. -/
def matchPfxAt (rp : ResPfx) (l : Str) : Option Str :=
  match rp with
  | .plain => stripLit servicePfx l
  | .numbered lit =>
    match stripLit lit l with
    | none => none
    | some r1 =>
      let ds := r1.takeWhile isDigit
      if ds = [] then none
      else
        match r1.drop ds.length with
        | [] => none
        | c :: r2 => if c = sep then stripLit servicePfx r2 else none

/-- The capture of `([^_]+)` right after position `p` of `l`: the
maximal run of non-separator characters from `p+1`. -/
def segAfter (l : Str) (p : Nat) : Str := (l.drop (p+1)).takeWhile (· ≠ sep)

/-- `validP l p` holds when the continuation `_([^_]+)_([^_]+)` of the
`decomposeLBName` regex matches at position `p` of `l` with a nonempty
first capture group `l.take p`. -/
def validP (l : Str) (p : Nat) : Bool :=
  decide (1 ≤ p) && l.get? p == some sep
    && !(segAfter l p == [])
    && l.get? (p + 1 + (segAfter l p).length) == some sep
    && !(segAfter l (p + 1 + (segAfter l p).length) == [])

/-- Match `(.+)_([^_]+)_([^_]+)` against `l` with Go's (Perl-style)
greedy backtracking semantics: the first capture group is as long as
possible, the last two are maximal runs of non-separator characters. -/
def tripleMatch (l : Str) : Option (Str × Str × Str) :=
  match (List.range l.length).reverse.find? (validP l) with
  | none => none
  | some p => some (l.take p, segAfter l p, segAfter l (p + 1 + (segAfter l p).length))

/-- Unanchored leftmost search for the full `decomposeLBName` regex:
try the pattern at each start position, left to right. -/
def searchName (rp : ResPfx) : Str → Option (Str × Str × Str)
  | [] =>
    match matchPfxAt rp [] with
    | some rest => tripleMatch rest
    | none => none
  | c :: l =>
    match matchPfxAt rp (c :: l) with
    | some rest =>
      match tripleMatch rest with
      | some t => some t
      | none => searchName rp l
    | none => searchName rp l

/-- `decomposeLBName` (src/unnamed/part_001, lines 63-72): match
`resourcePrefix + servicePrefix + "(.+)_([^_]+)_([^_]+)"` against
`lbName`; on failure return the three empty strings. -/
def decomposeLBName (rp : ResPfx) (lbName : Str) : Str × Str × Str :=
  match searchName rp lbName with
  | none => ([], [], [])
  | some t => t

/-- Index of the first occurrence of `needle` in `hay`
(Go `strings.Index`; an empty needle matches at index 0). -/
def findSub (hay needle : Str) : Option Nat :=
  if needle.isPrefixOf hay then some 0
  else
    match hay with
    | [] => none
    | _ :: t => (findSub t needle).map (· + 1)

/-- `replaceClusterName` (src/unnamed/part_001, lines 75-77):
Go `strings.Replace(objectName, oldClusterName, clusterName, 1)` —
replace the first occurrence of `oldCN` in `objectName` by `newCN`. -/
def replaceClusterName (oldCN newCN objectName : Str) : Str :=
  match findSub objectName oldCN with
  | none => objectName
  | some i => objectName.take i ++ newCN ++ objectName.drop (i + oldCN.length)

/-- The per-tag rewrite applied by `renameLoadBalancer` to listener and
load-balancer tags (src/unnamed/part_001, lines 124-130 and 141-147):
decompose the tag with no resource prefix; if it decodes to a nonempty
identity different from the target, replace the first occurrence of
that identity. -/
def rewriteTag (clusterName tag : Str) : Str :=
  let o := (decomposeLBName .plain tag).1
  if o ≠ [] ∧ o ≠ clusterName then replaceClusterName o clusterName tag else tag

-- -------------------------------------------------------------------
-- splitExportLocation (src/pkg/share/manila/sharebackends/util.go)
-- -------------------------------------------------------------------

/-- Index of the last occurrence of `c` in `l`
(Go `strings.LastIndexByte`; `none` when absent). -/
def lastIndexByte : Str → Char → Option Nat
  | [], _ => none
  | a :: l, c =>
    match lastIndexByte l c with
    | some i => some (i + 1)
    | none => if a = c then some 0 else none

/-- `splitExportLocation` (util.go, lines 33-44): split the export
location path at the last `':'`; error (modelled as `none`) when the
last `':'` is absent or at index 0; otherwise return the address part
before it and the location part after it. -/
def splitExportLocation (path : Str) : Option (Str × Str) :=
  match lastIndexByte path ':' with
  | none => none
  | some d => if d = 0 then none else some (path.take d, path.drop (d + 1))

-- -------------------------------------------------------------------
-- Resource tree, accessor events and the cascade orchestrator
-- -------------------------------------------------------------------

structure Monitor where
  id : Str
  name : Str
deriving DecidableEq, Repr

structure Pool where
  id : Str
  name : Str
  monitorID : Str
deriving DecidableEq, Repr

structure Listener where
  id : Str
  name : Str
  tags : List Str
deriving DecidableEq, Repr

structure LoadBalancer where
  id : Str
  name : Str
  tags : List Str
deriving DecidableEq, Repr

/-- The resource tree held by the external service: the root load
balancer, its listeners, the pool attached to each listener (keyed by
listener ID, per `GetPoolByListener`), and the health monitors (looked
up by monitor ID, per `GetHealthMonitor`). -/
structure RTree where
  lb : LoadBalancer
  listeners : List Listener
  pools : List (Str × Pool)
  monitors : List Monitor
deriving DecidableEq, Repr

/-- One accessor call, as recorded in the call trace. -/
inductive Ev where
  | listListeners (lbID : Str)
  | getPool (lbID lid : Str)
  | getMonitor (mid : Str)
  | updateMonitor (mid : Str) (nm : Str) (lbID : Str)
  | updatePool (lbID pid : Str) (nm : Str)
  | updateListener (lbID lid : Str) (nm : Str) (tags : List Str)
  | updateLoadBalancer (lbID : Str) (nm : Str) (tags : List Str)
deriving DecidableEq, Repr

inductive Err where
  | injected (n : Nat)
  | notFound (id : Str)
deriving DecidableEq, Repr

/-- The environment decides, per accessor-call index, whether that call
fails and with which error (fault injection for the external service). -/
structure Env where
  fault : Nat → Option Err

/-- The fault-free environment: every accessor call succeeds. -/
def envOK : Env := ⟨fun _ => none⟩

/-- Interpreter state: the current resource tree and the trace of
accessor calls issued so far (the next call has index `trace.length`). -/
structure St where
  tree : RTree
  trace : List Ev
deriving DecidableEq, Repr

/-- Issue one accessor call: record the event, consult the environment
for an injected fault, otherwise return `res` and (on success) apply
the mutation `tmut` to the tree. -/
def doCall {α : Type} (env : Env) (st : St) (ev : Ev) (res : Except Err α)
    (tmut : RTree → RTree) : Except Err α × St :=
  match env.fault st.trace.length with
  | some e => (.error e, ⟨st.tree, st.trace ++ [ev]⟩)
  | none =>
    match res with
    | .error e => (.error e, ⟨st.tree, st.trace ++ [ev]⟩)
    | .ok a => (.ok a, ⟨tmut st.tree, st.trace ++ [ev]⟩)

/-- `GetPoolByListener`: the pool attached to a listener. -/
def lookupPool (t : RTree) (lid : Str) : Except Err Pool :=
  match t.pools.find? (fun pr => pr.1 == lid) with
  | some pr => .ok pr.2
  | none => .error (.notFound lid)

/-- `GetHealthMonitor`: a monitor by its ID. -/
def lookupMonitor (t : RTree) (mid : Str) : Except Err Monitor :=
  match t.monitors.find? (fun m => m.id == mid) with
  | some m => .ok m
  | none => .error (.notFound mid)

def setMonitorName (t : RTree) (mid nm : Str) : RTree :=
  ⟨t.lb, t.listeners,
   t.pools,
   t.monitors.map (fun m => if m.id = mid then ⟨m.id, nm⟩ else m)⟩

def setPoolName (t : RTree) (pid nm : Str) : RTree :=
  ⟨t.lb, t.listeners,
   t.pools.map (fun pr => if pr.2.id = pid then (pr.1, ⟨pr.2.id, nm, pr.2.monitorID⟩) else pr),
   t.monitors⟩

def setListenerState (t : RTree) (lid nm : Str) (tags : List Str) : RTree :=
  ⟨t.lb,
   t.listeners.map (fun l => if l.id = lid then ⟨l.id, nm, tags⟩ else l),
   t.pools, t.monitors⟩

def setLB (t : RTree) (nm : Str) (tags : List Str) : RTree :=
  ⟨⟨t.lb.id, nm, tags⟩, t.listeners, t.pools, t.monitors⟩

/-- The monitor step of `renameLoadBalancer` (src/unnamed/part_001,
lines 107-120): inside the pool-mismatch branch, if the pool has a
monitor, fetch it, decompose its identity, and if different from the
target rewrite and persist the monitor's name. -/
def handleMonitor (env : Env) (cn lbID : Str) (p : Pool) (st : St) :
    Except Err Unit × St :=
  if p.monitorID = [] then (.ok (), st)
  else
    match doCall env st (.getMonitor p.monitorID) (lookupMonitor st.tree p.monitorID) id with
    | (.error e, st1) => (.error e, st1)
    | (.ok m, st1) =>
      let old3 := (decomposeLBName (.numbered monitorPfx) m.name).1
      if old3 = cn then (.ok (), st1)
      else
        let nm := replaceClusterName old3 cn m.name
        doCall env st1 (.updateMonitor m.id nm lbID) (.ok ())
          (fun t => setMonitorName t m.id nm)

/-- The pool-mismatch branch of `renameLoadBalancer` (src/unnamed/part_001,
lines 106-127): handle the monitor, then rewrite and persist the pool's
name using the pool's decomposed identity `old2`. -/
def handlePool (env : Env) (cn lbID : Str) (p : Pool) (old2 : Str) (st : St) :
    Except Err Unit × St :=
  match handleMonitor env cn lbID p st with
  | (.error e, st1) => (.error e, st1)
  | (.ok _, st1) =>
    let nm := replaceClusterName old2 cn p.name
    doCall env st1 (.updatePool lbID p.id nm) (.ok ())
      (fun t => setPoolName t p.id nm)

/-- The loop body of `renameLoadBalancer` (src/unnamed/part_001, lines
86-139): skip foreign listeners; if the listener's decomposed identity
differs from the target, fetch its pool, handle the pool (and monitor)
when the pool's identity differs, rewrite the tags, and persist the
listener's name (computed from the pool's decomposed identity `old2`,
the `oldClusterName` variable reassigned at line 106) together with
the rewritten tags. -/
def processListener (env : Env) (cn lbID : Str) (l : Listener) (st : St) :
    Except Err Unit × St :=
  if listenerPfx.isPrefixOf l.name then
    let old1 := (decomposeLBName (.numbered listenerPfx) l.name).1
    if old1 = cn then (.ok (), st)
    else
      match doCall env st (.getPool lbID l.id) (lookupPool st.tree l.id) id with
      | (.error e, st1) => (.error e, st1)
      | (.ok p, st1) =>
        let old2 := (decomposeLBName (.numbered poolPfx) p.name).1
        match (if old2 = cn then (.ok (), st1) else handlePool env cn lbID p old2 st1 :
            Except Err Unit × St) with
        | (.error e, st2) => (.error e, st2)
        | (.ok _, st2) =>
          let newTags := l.tags.map (rewriteTag cn)
          let newName := replaceClusterName old2 cn l.name
          doCall env st2 (.updateListener lbID l.id newName newTags) (.ok ())
            (fun t => setListenerState t l.id newName newTags)
  else (.ok (), st)

/-- The listener loop of `renameLoadBalancer`: process the snapshot of
listeners in order, aborting on the first error. -/
def processListeners (env : Env) (cn lbID : Str) :
    List Listener → St → Except Err Unit × St
  | [], st => (.ok (), st)
  | l :: ls, st =>
    match processListener env cn lbID l st with
    | (.error e, st1) => (.error e, st1)
    | (.ok _, st1) => processListeners env cn lbID ls st1

/-- `renameLoadBalancer` (src/unnamed/part_001, lines 79-148): list the
listeners, process each, then rewrite the load balancer's decodable
tags and persist the new load-balancer name and tag set as the last
update, returning the updated load balancer. -/
def renameLoadBalancer (env : Env) (tree : RTree) (lbName cn : Str) :
    Except Err LoadBalancer × St :=
  let st0 : St := ⟨tree, []⟩
  match doCall env st0 (.listListeners tree.lb.id) (Except.ok tree.listeners) id with
  | (.error e, st1) => (.error e, st1)
  | (.ok ls, st1) =>
    match processListeners env cn tree.lb.id ls st1 with
    | (.error e, st2) => (.error e, st2)
    | (.ok _, st2) =>
      let newTags := tree.lb.tags.map (rewriteTag cn)
      doCall env st2 (.updateLoadBalancer tree.lb.id lbName newTags)
        (.ok ⟨st2.tree.lb.id, lbName, newTags⟩)
        (fun t => setLB t lbName newTags)

/-- `lbHasOldClusterName` (src/unnamed/part_001, lines 48-60): true iff
the load balancer's name carries the OCCM service prefix and its
decomposed cluster-name component differs from `clusterName`. -/
def lbHasOldClusterName (lb : LoadBalancer) (clusterName : Str) : Bool :=
  if servicePfx.isPrefixOf lb.name then
    !((decomposeLBName .plain lb.name).1 == clusterName)
  else false

/-- Modelled from the spec: the encoded load-balancer name
`servicePrefix + clusterIdentity + "_" + namespace + "_" + name`
(§3 StructuredName and §8 Scenario 1); the composing caller is not
under `src/`. -/
def composeName (cn ns nm : Str) : Str := servicePfx ++ cn ++ sep :: (ns ++ sep :: nm)

/-- Modelled from the spec: the `migrate` entry point (§4.2).  The
caller of `renameLoadBalancer` is not under `src/`; per §4.2 step 1 and
the `lbHasOldClusterName` guard in the source, a load balancer whose
name is not managed or already carries the target identity is returned
unchanged with no accessor calls, otherwise `renameLoadBalancer` runs
with the spec-encoded target name. -/
def migrate (env : Env) (tree : RTree) (cn ns nm : Str) :
    Except Err LoadBalancer × St :=
  if lbHasOldClusterName tree.lb cn then
    renameLoadBalancer env tree (composeName cn ns nm) cn
  else (.ok tree.lb, ⟨tree, []⟩)

-- -------------------------------------------------------------------
-- List helper lemmas
-- -------------------------------------------------------------------

theorem get?_len_append {α : Type} (xs : List α) (y : α) (ys : List α) :
    (xs ++ y :: ys).get? xs.length = some y := by
  rw [List.get?_append_right (Nat.le_refl _)]
  simp

theorem drop_len_cons_append {α : Type} (xs : List α) (y : α) (ys : List α) :
    (xs ++ y :: ys).drop (xs.length + 1) = ys := by
  have : (xs ++ y :: ys).drop (xs.length + 1) = ((xs ++ [y]) ++ ys).drop (xs ++ [y]).length := by
    simp
  rw [this, List.drop_left]

theorem takeWhile_append_stop {α : Type} (p : α → Bool) (xs : List α) (y : α) (ys : List α)
    (hall : ∀ x ∈ xs, p x = true) (hy : p y = false) :
    (xs ++ y :: ys).takeWhile p = xs := by
  induction xs with
  | nil => simp [List.takeWhile, hy]
  | cons a t ih =>
    have ha : p a = true := hall a (by simp)
    rw [List.cons_append, List.takeWhile_cons_of_pos ha,
      ih (fun x hx => hall x (by simp [hx]))]

theorem takeWhile_ne_nil_of_head {α : Type} (p : α → Bool) (y : α) (ys : List α)
    (hy : p y = true) : (y :: ys).takeWhile p ≠ [] := by
  simp [List.takeWhile, hy]

theorem drop_takeWhile_length {α : Type} (p : α → Bool) (l : List α) :
    l.drop (l.takeWhile p).length = l.dropWhile p := by
  induction l with
  | nil => simp
  | cons a t ih =>
    by_cases ha : p a
    · simp [List.takeWhile, List.dropWhile, ha, ih]
    · simp [List.takeWhile, List.dropWhile, ha]

theorem get?_some_split {α : Type} {l : List α} {p : Nat} {x : α}
    (h : l.get? p = some x) : l = l.take p ++ x :: l.drop (p + 1) := by
  rcases List.get?_eq_some.1 h with ⟨hp, hg⟩
  conv_lhs => rw [← List.take_append_drop p l]
  rw [List.drop_eq_get_cons hp, hg]

/-- `find?` on the reversed range, given a valid index whose validity is
maximal, returns that index. -/
theorem find?_reverse_range_eq {pred : Nat → Bool} {n p : Nat}
    (hp : p < n) (hv : pred p = true) (hmax : ∀ q, p < q → pred q = false) :
    (List.range n).reverse.find? pred = some p := by
  induction n with
  | zero => omega
  | succ m ih =>
    rw [List.range_succ, List.reverse_append]
    simp only [List.reverse_singleton, List.singleton_append, List.find?]
    by_cases hm : p = m
    · subst hm; simp [hv]
    · have hpm : p < m := by omega
      have : pred m = false := hmax m hpm
      simp only [this]
      exact ih hpm

theorem find?_reverse_range_none {pred : Nat → Bool} {n : Nat} :
    (List.range n).reverse.find? pred = none ↔ ∀ p < n, pred p = false := by
  rw [List.find?_eq_none]
  constructor
  · intro h p hp
    have := h p (by simp [List.mem_reverse, List.mem_range, hp])
    simpa using this
  · intro h x hx
    simp only [List.mem_reverse, List.mem_range] at hx
    simp [h x hx]

theorem find?_reverse_range_max {pred : Nat → Bool} {n p : Nat}
    (h : (List.range n).reverse.find? pred = some p) :
    ∀ q, p < q → q < n → pred q = false := by
  induction n with
  | zero => intro q _ hq; omega
  | succ m ih =>
    rw [List.range_succ, List.reverse_append] at h
    simp only [List.reverse_singleton, List.singleton_append, List.find?] at h
    intro q hpq hq
    by_cases hm : pred m
    · simp only [hm] at h
      have : p = m := by simpa using h.symm
      omega
    · simp only [Bool.of_not_eq_true hm] at h
      rcases Nat.lt_succ_iff_lt_or_eq.1 hq with hq' | hq'
      · exact ih h q hpq hq'
      · subst hq'; simpa using hm

theorem find?_reverse_range_found {pred : Nat → Bool} {n p : Nat}
    (h : (List.range n).reverse.find? pred = some p) : pred p = true ∧ p < n := by
  refine ⟨List.find?_some h, ?_⟩
  have := List.mem_of_find?_eq_some h
  simpa [List.mem_reverse, List.mem_range] using this

-- -------------------------------------------------------------------
-- validP characterization
-- -------------------------------------------------------------------

theorem validP_lt {l : Str} {p : Nat} (h : validP l p = true) : p < l.length := by
  unfold validP at h
  simp only [Bool.and_eq_true, beq_iff_eq, decide_eq_true_eq] at h
  exact List.get?_eq_some.1 h.1.1.1.2 |>.1

theorem dropWhile_head_not {α : Type} (p : α → Bool) (l : List α) {x : α} {t : List α}
    (h : l.dropWhile p = x :: t) : p x = false := by
  induction l with
  | nil => simp [List.dropWhile] at h
  | cons a r ih =>
    by_cases ha : p a
    · rw [List.dropWhile_cons_of_pos ha] at h; exact ih h
    · rw [List.dropWhile_cons_of_neg ha] at h
      cases h; simpa using ha

theorem takeWhile_drop_eq {α : Type} (p : α → Bool) (l : List α) :
    l = l.takeWhile p ++ l.drop (l.takeWhile p).length := by
  conv_lhs => rw [← List.takeWhile_append_dropWhile p l]
  rw [drop_takeWhile_length]

theorem get?_of_drop_cons {α : Type} {l : List α} {q : Nat} {x : α} {t : List α}
    (h : l.drop q = x :: t) : l.get? q = some x := by
  have h0 := List.get?_drop l q 0
  rw [h] at h0
  simpa using h0.symm

theorem segAfter_def (l : Str) (p : Nat) :
    segAfter l p = (l.drop (p+1)).takeWhile (· ≠ sep) := rfl

/-- Splitting `l` at a separator position `p`: the prefix, the separator,
the following non-separator segment, and the rest. -/
theorem drop_seg_split {l : Str} {p : Nat} (h : l.get? p = some sep) :
    l = l.take p ++ sep :: (segAfter l p ++ l.drop (p + 1 + (segAfter l p).length)) := by
  have h1 := get?_some_split h
  have h3 : l.drop (p + 1 + (segAfter l p).length) =
      (l.drop (p+1)).drop (segAfter l p).length := by
    rw [List.drop_drop]
  rw [h3, segAfter_def, ← takeWhile_drop_eq (· ≠ sep) (l.drop (p+1))]
  exact h1

theorem segAfter_sepfree (l : Str) (p : Nat) : ∀ x ∈ segAfter l p, x ≠ sep := by
  intro x hx
  rw [segAfter_def] at hx
  have := List.mem_takeWhile_imp hx
  simpa using this

/-- The rest after the `segAfter` segment is empty or starts with a separator. -/
theorem rest_after_seg (l : Str) (p : Nat) :
    l.drop (p + 1 + (segAfter l p).length) = [] ∨
    ∃ t, l.drop (p + 1 + (segAfter l p).length) = sep :: t := by
  have hdw : (l.drop (p+1)).dropWhile (· ≠ sep) = l.drop (p + 1 + (segAfter l p).length) := by
    rw [← drop_takeWhile_length (· ≠ sep) (l.drop (p+1)), List.drop_drop, segAfter_def]
  rcases hrest : l.drop (p + 1 + (segAfter l p).length) with _ | ⟨x, t⟩
  · exact Or.inl rfl
  · refine Or.inr ⟨t, ?_⟩
    rw [hrest] at hdw
    have := dropWhile_head_not (· ≠ sep) (l.drop (p+1)) hdw
    have hxsep : x = sep := by simpa using this
    rw [hxsep]

/-- `validP` at `p` yields the structured split read off by `tripleMatch`. -/
theorem split_of_validP {l : Str} {p : Nat} (h : validP l p = true) :
    l = l.take p ++ sep :: (segAfter l p ++ sep ::
      (segAfter l (p + 1 + (segAfter l p).length) ++
        l.drop (p + 1 + (segAfter l p).length + 1 +
          (segAfter l (p + 1 + (segAfter l p).length)).length))) ∧
    1 ≤ p ∧ (l.take p).length = p ∧
    segAfter l p ≠ [] ∧ segAfter l (p + 1 + (segAfter l p).length) ≠ [] := by
  unfold validP at h
  simp only [Bool.and_eq_true, beq_iff_eq, decide_eq_true_eq, Bool.not_eq_true',
    beq_eq_false_iff_ne, ne_eq] at h
  obtain ⟨⟨⟨⟨hp1, hgp⟩, hbne⟩, hgq⟩, hcne⟩ := h
  have hplen : p < l.length := List.get?_eq_some.1 hgp |>.1
  have htakelen : (l.take p).length = p := by
    rw [List.length_take, Nat.min_eq_left (Nat.le_of_lt hplen)]
  have hsplit1 := drop_seg_split hgp
  have hsplit2 := drop_seg_split hgq
  have hqlen : (l.take (p + 1 + (segAfter l p).length)).length = p + 1 + (segAfter l p).length := by
    have : p + 1 + (segAfter l p).length < l.length := List.get?_eq_some.1 hgq |>.1
    rw [List.length_take, Nat.min_eq_left (Nat.le_of_lt this)]
  have htq : l.take (p + 1 + (segAfter l p).length) = l.take p ++ sep :: segAfter l p := by
    have hlen : (l.take p ++ sep :: segAfter l p).length = p + 1 + (segAfter l p).length := by
      simp [htakelen]; omega
    calc l.take (p + 1 + (segAfter l p).length)
        = (l.take p ++ sep :: (segAfter l p ++ l.drop (p + 1 + (segAfter l p).length))).take
            (p + 1 + (segAfter l p).length) := by rw [← hsplit1]
    _ = ((l.take p ++ sep :: segAfter l p) ++ l.drop (p + 1 + (segAfter l p).length)).take
            (p + 1 + (segAfter l p).length) := by simp
    _ = l.take p ++ sep :: segAfter l p := List.take_left' hlen
  refine ⟨?_, hp1, htakelen, hbne, hcne⟩
  calc l = l.take (p + 1 + (segAfter l p).length) ++ sep ::
        (segAfter l (p + 1 + (segAfter l p).length) ++
          l.drop (p + 1 + (segAfter l p).length + 1 +
            (segAfter l (p + 1 + (segAfter l p).length)).length)) := hsplit2
  _ = _ := by rw [htq]; simp

/-- A structured split of `l` at position `a.length` makes `validP` true. -/
theorem validP_of_split {l a b c post : Str}
    (hl : l = a ++ sep :: (b ++ sep :: (c ++ post)))
    (ha : a ≠ []) (hb : b ≠ []) (hc : c ≠ [])
    (hsb : ∀ x ∈ b, x ≠ sep) (hsc : ∀ x ∈ c, x ≠ sep) :
    validP l a.length = true := by
  subst hl
  have hga : (a ++ sep :: (b ++ sep :: (c ++ post))).get? a.length = some sep :=
    get?_len_append a sep _
  have hdrop1 : (a ++ sep :: (b ++ sep :: (c ++ post))).drop (a.length + 1) =
      b ++ sep :: (c ++ post) := drop_len_cons_append a sep _
  have hseg1 : segAfter (a ++ sep :: (b ++ sep :: (c ++ post))) a.length = b := by
    rw [segAfter_def, hdrop1]
    exact takeWhile_append_stop _ b sep _ (fun x hx => by simpa using hsb x hx) (by simp)
  have hq : (a ++ sep :: (b ++ sep :: (c ++ post))).drop (a.length + 1 + b.length) =
      sep :: (c ++ post) := by
    have h' := congrArg (List.drop b.length) hdrop1
    rw [List.drop_drop, List.drop_left] at h'
    exact h'
  have hgq : (a ++ sep :: (b ++ sep :: (c ++ post))).get? (a.length + 1 + b.length) =
      some sep := get?_of_drop_cons hq
  have hdrop2 : (a ++ sep :: (b ++ sep :: (c ++ post))).drop (a.length + 1 + b.length + 1) =
      c ++ post := by
    have h'' := congrArg (List.drop 1) hq
    rw [List.drop_drop] at h''
    simpa using h''
  have hseg2ne : segAfter (a ++ sep :: (b ++ sep :: (c ++ post)))
      (a.length + 1 + b.length) ≠ [] := by
    rw [segAfter_def, hdrop2]
    rcases c with _ | ⟨x, t⟩
    · exact absurd rfl hc
    · exact takeWhile_ne_nil_of_head _ x _ (by simpa using hsc x (by simp))
  have hap : 1 ≤ a.length := List.length_pos.2 ha
  unfold validP
  rw [hseg1, hga, hgq]
  simp [hb, hseg2ne, hap]

-- -------------------------------------------------------------------
-- The regex language recognized by decomposeLBName (spec side)
-- -------------------------------------------------------------------

/-- The set of strings matched by the prefix part of the
`decomposeLBName` regex (`resourcePrefix + servicePrefix`). -/
def PfxLang : ResPfx → Str → Prop
  | .plain, P => P = servicePfx
  | .numbered lit, P =>
      ∃ ds, ds ≠ [] ∧ (∀ c ∈ ds, isDigit c = true) ∧ P = lit ++ ds ++ sep :: servicePfx

theorem pfxLang_ne_nil {rp : ResPfx} {P : Str} (h : PfxLang rp P) : P ≠ [] := by
  cases rp with
  | plain => rw [h]; decide
  | numbered lit =>
    obtain ⟨ds, _, _, hP⟩ := h
    rw [hP]
    simp

theorem stripLit_eq_some {p l r : Str} : stripLit p l = some r ↔ l = p ++ r := by
  unfold stripLit
  by_cases h : p.isPrefixOf l
  · rw [if_pos h]
    simp only [Option.some_inj]
    constructor
    · rintro rfl
      obtain ⟨t, ht⟩ := List.isPrefixOf_iff_prefix.1 h
      rw [← ht, List.drop_left]
    · rintro rfl
      rw [List.drop_left]
  · rw [if_neg h]
    constructor
    · intro hh; cases hh
    · rintro rfl
      exact absurd (List.isPrefixOf_iff_prefix.2 ⟨r, rfl⟩) h

theorem isDigit_sep : isDigit sep = false := by decide

theorem matchPfxAt_some {rp : ResPfx} {l r : Str} :
    matchPfxAt rp l = some r ↔ ∃ P, PfxLang rp P ∧ l = P ++ r := by
  cases rp with
  | plain =>
    simp only [matchPfxAt, PfxLang]
    rw [stripLit_eq_some]
    constructor
    · intro h; exact ⟨servicePfx, rfl, h⟩
    · rintro ⟨P, rfl, h⟩; exact h
  | numbered lit =>
    constructor
    · intro h
      simp only [matchPfxAt] at h
      cases hs : stripLit lit l with
      | none => rw [hs] at h; cases h
      | some r1 =>
        rw [hs] at h
        dsimp only at h
        by_cases hds : r1.takeWhile isDigit = []
        · rw [if_pos hds] at h; cases h
        · rw [if_neg hds] at h
          cases hdrop : r1.drop (r1.takeWhile isDigit).length with
          | nil => rw [hdrop] at h; cases h
          | cons ch r2 =>
            rw [hdrop] at h
            dsimp only at h
            by_cases hch : ch = sep
            · rw [if_pos hch] at h
              have hr2 : r2 = servicePfx ++ r := stripLit_eq_some.1 h
              have hl : l = lit ++ r1 := stripLit_eq_some.1 hs
              have hr1 : r1 = r1.takeWhile isDigit ++ (ch :: r2) := by
                conv_lhs => rw [takeWhile_drop_eq isDigit r1]
                rw [hdrop]
              refine ⟨lit ++ r1.takeWhile isDigit ++ sep :: servicePfx,
                ⟨r1.takeWhile isDigit, hds, fun x hx => List.mem_takeWhile_imp hx, rfl⟩, ?_⟩
              rw [hl, hr1, hch, hr2]
              simp only [List.append_assoc, List.cons_append, List.nil_append]
              rw [takeWhile_append_stop isDigit _ sep _
                (fun x hx => List.mem_takeWhile_imp hx) isDigit_sep]
            · rw [if_neg hch] at h; cases h
    · rintro ⟨P, ⟨ds, hne, hdig, hP⟩, hl⟩
      have hl' : l = lit ++ (ds ++ sep :: (servicePfx ++ r)) := by
        rw [hl, hP]; simp
      have hs : stripLit lit l = some (ds ++ sep :: (servicePfx ++ r)) :=
        stripLit_eq_some.2 hl'
      have htw : (ds ++ sep :: (servicePfx ++ r)).takeWhile isDigit = ds :=
        takeWhile_append_stop _ ds sep _ hdig isDigit_sep
      have hdrop : (ds ++ sep :: (servicePfx ++ r)).drop ds.length =
          sep :: (servicePfx ++ r) := List.drop_left _ _
      have hfin : stripLit servicePfx (servicePfx ++ r) = some r := stripLit_eq_some.2 rfl
      simp only [matchPfxAt, hs, htw, hdrop, if_neg hne]
      simp [hfin]

theorem matchPfxAt_eq_none {rp : ResPfx} {l : Str} :
    matchPfxAt rp l = none ↔ ∀ P r, PfxLang rp P → l ≠ P ++ r := by
  constructor
  · intro h P r hP hl
    have : matchPfxAt rp l = some r := matchPfxAt_some.2 ⟨P, hP, hl⟩
    rw [h] at this; cases this
  · intro h
    cases hm : matchPfxAt rp l with
    | none => rfl
    | some r =>
      obtain ⟨P, hP, hl⟩ := matchPfxAt_some.1 hm
      exact absurd hl (h P r hP)

/-- Soundness of `tripleMatch`: a successful match yields a structured
split with nonempty greedy-maximal first group and nonempty
separator-free second and third groups. -/
theorem tripleMatch_eq_some {l a b c : Str} (h : tripleMatch l = some (a, b, c)) :
    ∃ post, l = a ++ sep :: (b ++ sep :: (c ++ post)) ∧
      a ≠ [] ∧ b ≠ [] ∧ c ≠ [] ∧ (∀ x ∈ b, x ≠ sep) ∧ (∀ x ∈ c, x ≠ sep) ∧
      (post = [] ∨ ∃ t, post = sep :: t) ∧
      (∀ a' b' c' post', l = a' ++ sep :: (b' ++ sep :: (c' ++ post')) →
        a' ≠ [] → b' ≠ [] → c' ≠ [] → (∀ x ∈ b', x ≠ sep) → (∀ x ∈ c', x ≠ sep) →
        a'.length ≤ a.length) := by
  unfold tripleMatch at h
  cases hf : (List.range l.length).reverse.find? (validP l) with
  | none => rw [hf] at h; cases h
  | some p =>
    rw [hf] at h
    obtain ⟨hval, hplt⟩ := find?_reverse_range_found hf
    obtain ⟨ha, hb, hc⟩ : a = l.take p ∧ b = segAfter l p ∧
        c = segAfter l (p + 1 + (segAfter l p).length) := by
      injection h with h'
      replace h' := h'.symm
      simpa [Prod.ext_iff] using h'
    obtain ⟨hsplit, hp1, htl, hbne, hcne⟩ := split_of_validP hval
    have halen : a.length = p := by rw [ha, htl]
    refine ⟨l.drop (p + 1 + (segAfter l p).length + 1 +
        (segAfter l (p + 1 + (segAfter l p).length)).length), ?_, ?_, ?_, ?_, ?_, ?_, ?_, ?_⟩
    · rw [ha, hb, hc]; exact hsplit
    · rw [ha]
      intro hnil
      have := congrArg List.length hnil
      rw [htl] at this
      simp at this
      omega
    · rw [hb]; exact hbne
    · rw [hc]; exact hcne
    · rw [hb]; exact segAfter_sepfree l p
    · rw [hc]; exact segAfter_sepfree l _
    · exact rest_after_seg l _
    · intro a' b' c' post' hl' ha' hb' hc' hsb' hsc'
      have hv' : validP l a'.length = true :=
        validP_of_split hl' ha' hb' hc' hsb' hsc'
      by_contra hgt
      have hlt : p < a'.length := by omega
      have ha'lt : a'.length < l.length := by
        rw [hl']
        simp only [List.length_append, List.length_cons]
        omega
      have := find?_reverse_range_max hf a'.length hlt ha'lt
      rw [hv'] at this
      cases this

/-- Completeness of `tripleMatch`: failure means no structured split exists. -/
theorem tripleMatch_eq_none {l : Str} (h : tripleMatch l = none) :
    ∀ a b c post, l = a ++ sep :: (b ++ sep :: (c ++ post)) →
      a ≠ [] → b ≠ [] → c ≠ [] → (∀ x ∈ b, x ≠ sep) → (∀ x ∈ c, x ≠ sep) → False := by
  unfold tripleMatch at h
  cases hf : (List.range l.length).reverse.find? (validP l) with
  | some p => rw [hf] at h; cases h
  | none =>
    intro a b c post hl ha hb hc hsb hsc
    have hv := validP_of_split hl ha hb hc hsb hsc
    have halt : a.length < l.length := by
      rw [hl]
      simp only [List.length_append, List.length_cons]
      omega
    have := find?_reverse_range_none.1 hf a.length halt
    rw [hv] at this
    cases this

theorem searchName_head {rp : ResPfx} {l rest : Str} {t : Str × Str × Str}
    (hm : matchPfxAt rp l = some rest) (ht : tripleMatch rest = some t) :
    searchName rp l = some t := by
  cases l with
  | nil => simp [searchName, hm, ht]
  | cons x l' => simp [searchName, hm, ht]

theorem searchName_nil_eq (rp : ResPfx) : searchName rp [] = none := by
  cases hm : matchPfxAt rp [] with
  | none => simp [searchName, hm]
  | some rest =>
    exfalso
    obtain ⟨P, hP, h⟩ := matchPfxAt_some.1 hm
    exact pfxLang_ne_nil hP (List.append_eq_nil.mp h.symm).1

/-- Soundness of the unanchored search: a successful `searchName` yields
a full structured decomposition of the raw string, with the first
capture greedy-maximal at its match position. -/
theorem searchName_eq_some {rp : ResPfx} {raw a b c : Str}
    (h : searchName rp raw = some (a, b, c)) :
    ∃ pre P post, PfxLang rp P ∧
      raw = pre ++ P ++ (a ++ sep :: (b ++ sep :: (c ++ post))) ∧
      a ≠ [] ∧ b ≠ [] ∧ c ≠ [] ∧ (∀ x ∈ b, x ≠ sep) ∧ (∀ x ∈ c, x ≠ sep) ∧
      (post = [] ∨ ∃ t, post = sep :: t) ∧
      (∀ a' b' c' post', raw = pre ++ P ++ (a' ++ sep :: (b' ++ sep :: (c' ++ post'))) →
        a' ≠ [] → b' ≠ [] → c' ≠ [] → (∀ x ∈ b', x ≠ sep) → (∀ x ∈ c', x ≠ sep) →
        a'.length ≤ a.length) := by
  induction raw with
  | nil => rw [searchName_nil_eq] at h; cases h
  | cons x l ih =>
    cases hm : matchPfxAt rp (x :: l) with
    | some rest =>
      cases ht : tripleMatch rest with
      | some t =>
        simp only [searchName, hm, ht] at h
        obtain rfl : t = (a, b, c) := by
          cases h; rfl
        obtain ⟨post, hsplit, ha, hb, hc, hsb, hsc, hpost, hgr⟩ := tripleMatch_eq_some ht
        obtain ⟨P, hP, hl⟩ := matchPfxAt_some.1 hm
        refine ⟨[], P, post, hP, by rw [hl, hsplit]; simp, ha, hb, hc, hsb, hsc, hpost, ?_⟩
        intro a' b' c' post' heq ha' hb' hc' hsb' hsc'
        have hrest' : rest = a' ++ sep :: (b' ++ sep :: (c' ++ post')) := by
          have h1 : P ++ rest = P ++ (a' ++ sep :: (b' ++ sep :: (c' ++ post'))) := by
            rw [← hl]
            simpa using heq
          exact List.append_cancel_left h1
        exact hgr a' b' c' post' hrest' ha' hb' hc' hsb' hsc'
      | none =>
        simp only [searchName, hm, ht] at h
        obtain ⟨pre, P, post, hP, hraw, ha, hb, hc, hsb, hsc, hpost, hgr⟩ := ih h
        refine ⟨x :: pre, P, post, hP, ?_, ha, hb, hc, hsb, hsc, hpost, ?_⟩
        · simp only [List.cons_append]
          rw [← hraw]
        · intro a' b' c' post' heq ha' hb' hc' hsb' hsc'
          apply hgr a' b' c' post' ?_ ha' hb' hc' hsb' hsc'
          simp only [List.cons_append] at heq
          injection heq
    | none =>
      simp only [searchName, hm] at h
      obtain ⟨pre, P, post, hP, hraw, ha, hb, hc, hsb, hsc, hpost, hgr⟩ := ih h
      refine ⟨x :: pre, P, post, hP, ?_, ha, hb, hc, hsb, hsc, hpost, ?_⟩
      · simp only [List.cons_append]
        rw [← hraw]
      · intro a' b' c' post' heq ha' hb' hc' hsb' hsc'
        apply hgr a' b' c' post' ?_ ha' hb' hc' hsb' hsc'
        simp only [List.cons_append] at heq
        injection heq

/-- Completeness of the unanchored search: if `searchName` fails, no
structured decomposition of the raw string exists anywhere. -/
theorem searchName_eq_none {rp : ResPfx} {raw : Str} (h : searchName rp raw = none) :
    ∀ pre P a b c post, PfxLang rp P →
      raw = pre ++ P ++ (a ++ sep :: (b ++ sep :: (c ++ post))) →
      a ≠ [] → b ≠ [] → c ≠ [] → (∀ x ∈ b, x ≠ sep) → (∀ x ∈ c, x ≠ sep) → False := by
  induction raw with
  | nil =>
    intro pre P a b c post hP hraw ha hb hc hsb hsc
    have hlen := congrArg List.length hraw
    simp only [List.length_nil, List.length_append, List.length_cons] at hlen
    have hPlen : P.length = 0 := by omega
    exact pfxLang_ne_nil hP (List.length_eq_zero.1 hPlen)
  | cons x l ih =>
    intro pre P a b c post hP hraw ha hb hc hsb hsc
    cases pre with
    | nil =>
      simp only [List.nil_append] at hraw
      have hm : matchPfxAt rp (x :: l) = some (a ++ sep :: (b ++ sep :: (c ++ post))) :=
        matchPfxAt_some.2 ⟨P, hP, hraw⟩
      cases ht : tripleMatch (a ++ sep :: (b ++ sep :: (c ++ post))) with
      | some t => simp [searchName, hm, ht] at h
      | none => exact tripleMatch_eq_none ht a b c post rfl ha hb hc hsb hsc
    | cons y pre' =>
      simp only [List.cons_append] at hraw
      injection hraw with hxy hl
      have hnone : searchName rp l = none := by
        cases hm : matchPfxAt rp (x :: l) with
        | none => simpa [searchName, hm] using h
        | some rest =>
          cases ht : tripleMatch rest with
          | some t => exfalso; simp [searchName, hm, ht] at h
          | none => simpa [searchName, hm, ht] using h
      exact ih hnone pre' P a b c post hP hl ha hb hc hsb hsc

theorem decomposeLBName_of_search_some {rp : ResPfx} {raw : Str} {t : Str × Str × Str}
    (h : searchName rp raw = some t) : decomposeLBName rp raw = t := by
  simp [decomposeLBName, h]

theorem decomposeLBName_of_search_none {rp : ResPfx} {raw : Str}
    (h : searchName rp raw = none) : decomposeLBName rp raw = ([], [], []) := by
  simp [decomposeLBName, h]

-- -------------------------------------------------------------------
-- Uniqueness of the split and the compose/decompose round trip
-- -------------------------------------------------------------------

theorem sepfree_split_eq {b u b' u' : Str} (h : b ++ sep :: u = b' ++ sep :: u')
    (hb : ∀ x ∈ b, x ≠ sep) (hb' : ∀ x ∈ b', x ≠ sep) : b = b' ∧ u = u' := by
  induction b generalizing b' with
  | nil =>
    cases b' with
    | nil => simpa using h
    | cons y t =>
      simp only [List.nil_append, List.cons_append] at h
      injection h with h1 h2
      exact absurd h1.symm (hb' y (by simp))
  | cons z t ih =>
    cases b' with
    | nil =>
      simp only [List.cons_append, List.nil_append] at h
      injection h with h1 h2
      exact absurd h1 (hb z (by simp))
    | cons y t' =>
      simp only [List.cons_append] at h
      injection h with h1 h2
      obtain ⟨e1, e2⟩ := ih h2 (fun x hx => hb x (by simp [hx])) (fun x hx => hb' x (by simp [hx]))
      exact ⟨by rw [h1, e1], e2⟩

theorem count_sep_zero {l : Str} (h : ∀ x ∈ l, x ≠ sep) : l.count sep = 0 :=
  List.count_eq_zero.2 (fun hmem => h sep hmem rfl)

/-- In `cn ++ "_" ++ ns ++ "_" ++ nm` with separator-free `ns`, `nm`, any
greedy split must cut exactly at `cn.length`. -/
theorem split_len_eq {rest cn ns nm a b c post : Str}
    (h1 : rest = cn ++ sep :: (ns ++ sep :: nm))
    (h2 : rest = a ++ sep :: (b ++ sep :: (c ++ post)))
    (hns : ∀ x ∈ ns, x ≠ sep) (hnm : ∀ x ∈ nm, x ≠ sep)
    (hge : cn.length ≤ a.length) : a.length = cn.length := by
  by_contra hne
  have hlt : cn.length < a.length := lt_of_le_of_ne hge (Ne.symm hne)
  have hpre1 : cn ++ [sep] <+: rest := ⟨ns ++ sep :: nm, by rw [h1]; simp⟩
  have hpre2 : a <+: rest := ⟨sep :: (b ++ sep :: (c ++ post)), by rw [h2]⟩
  have hpre : cn ++ [sep] <+: a := by
    refine List.prefix_of_prefix_length_le hpre1 hpre2 ?_
    simp only [List.length_append, List.length_singleton]
    omega
  obtain ⟨z, hz⟩ := hpre
  have hc1 : rest.count sep = cn.count sep + 2 := by
    rw [h1]
    simp [List.count_append, List.count_cons, count_sep_zero hns, count_sep_zero hnm]
    try omega
  have hc2 : rest.count sep = a.count sep + b.count sep + c.count sep + post.count sep + 2 := by
    rw [h2]
    simp [List.count_append, List.count_cons]
    try omega
  have hca : a.count sep = cn.count sep + 1 + z.count sep := by
    rw [← hz]
    simp [List.count_append, List.count_cons]
    try omega
  omega

theorem prefix_eq_of_length_eq {l a b : Str} (ha : a <+: l) (hb : b <+: l)
    (hlen : a.length = b.length) : a = b := by
  obtain ⟨t1, ht1⟩ := ha
  obtain ⟨t2, ht2⟩ := hb
  have h1 : a = l.take a.length := by rw [← ht1, List.take_left]
  have h2 : b = l.take b.length := by rw [← ht2, List.take_left]
  rw [h1, h2, hlen]

/-- Round trip: decomposing a composed name recovers the components,
for a nonempty identity and nonempty separator-free namespace/name. -/
theorem decompose_composeName {cn ns nm : Str} (hcn : cn ≠ []) (hns : ns ≠ []) (hnm : nm ≠ [])
    (h1 : ∀ x ∈ ns, x ≠ sep) (h2 : ∀ x ∈ nm, x ≠ sep) :
    decomposeLBName .plain (composeName cn ns nm) = (cn, ns, nm) := by
  have hrest : composeName cn ns nm = servicePfx ++ (cn ++ sep :: (ns ++ sep :: nm)) := by
    unfold composeName; simp
  have hm : matchPfxAt ResPfx.plain (composeName cn ns nm) =
      some (cn ++ sep :: (ns ++ sep :: nm)) :=
    matchPfxAt_some.2 ⟨servicePfx, rfl, hrest⟩
  have hl0 : cn ++ sep :: (ns ++ sep :: nm) = cn ++ sep :: (ns ++ sep :: (nm ++ [])) := by simp
  cases ht : tripleMatch (cn ++ sep :: (ns ++ sep :: nm)) with
  | none => exact (tripleMatch_eq_none ht cn ns nm [] hl0 hcn hns hnm h1 h2).elim
  | some t =>
    obtain ⟨a, b, c⟩ := t
    obtain ⟨post, hsplit, ha, hb, hc, hsb, hsc, hpost, hgr⟩ := tripleMatch_eq_some ht
    have hge : cn.length ≤ a.length := hgr cn ns nm [] hl0 hcn hns hnm h1 h2
    have hlen : a.length = cn.length := split_len_eq rfl hsplit h1 h2 hge
    have hp1 : a <+: cn ++ sep :: (ns ++ sep :: nm) :=
      ⟨sep :: (b ++ sep :: (c ++ post)), hsplit.symm⟩
    have hp2 : cn <+: cn ++ sep :: (ns ++ sep :: nm) := ⟨sep :: (ns ++ sep :: nm), rfl⟩
    have haeq : a = cn := prefix_eq_of_length_eq hp1 hp2 hlen
    subst haeq
    have h4 := List.append_cancel_left hsplit
    injection h4 with _ h5
    obtain ⟨hbns, hcnm⟩ := sepfree_split_eq h5.symm hsb h1
    have hcpost : c ++ post = nm := hcnm
    have hpostnil : post = [] := by
      rcases hpost with hp | ⟨t', hp⟩
      · exact hp
      · exfalso
        have : sep ∈ nm := by
          rw [← hcpost, hp]
          simp
        exact h2 sep this rfl
    have hceq : c = nm := by
      rw [hpostnil] at hcpost
      simpa using hcpost
    rw [decomposeLBName_of_search_some (searchName_head hm ht), hbns, hceq]

-- -------------------------------------------------------------------
-- Interpreter lemmas: doCall
-- -------------------------------------------------------------------

theorem doCall_calls_eq {α : Type} {env : Env} {st : St} {ev : Ev}
    {res : Except Err α} {tmut : RTree → RTree} :
    (doCall env st ev res tmut).2.trace.length = st.trace.length + 1 := by
  unfold doCall
  cases env.fault st.trace.length with
  | some e => simp
  | none => cases res with
    | error e => simp
    | ok a => simp

theorem doCall_trace_eq {α : Type} {env : Env} {st : St} {ev : Ev}
    {res : Except Err α} {tmut : RTree → RTree} :
    (doCall env st ev res tmut).2.trace = st.trace ++ [ev] := by
  unfold doCall
  cases env.fault st.trace.length with
  | some e => rfl
  | none => cases res with
    | error e => rfl
    | ok a => rfl

theorem doCall_fault {α : Type} {env : Env} {st : St} {e : Err}
    (hf : env.fault st.trace.length = some e) (ev : Ev) (res : Except Err α) (tmut : RTree → RTree) :
    doCall env st ev res tmut = (.error e, ⟨st.tree, st.trace ++ [ev]⟩) := by
  unfold doCall
  rw [hf]

theorem doCall_ok_elim {α : Type} {env : Env} {st : St} {ev : Ev}
    {res : Except Err α} {tmut : RTree → RTree} {a : α} {st' : St}
    (h : doCall env st ev res tmut = (.ok a, st')) :
    env.fault st.trace.length = none ∧ res = .ok a ∧
      st' = ⟨tmut st.tree, st.trace ++ [ev]⟩ := by
  unfold doCall at h
  cases hf : env.fault st.trace.length with
  | some e => rw [hf] at h; simp at h
  | none =>
    rw [hf] at h
    cases res with
    | error e => simp at h
    | ok b =>
      simp only [Prod.mk.injEq, Except.ok.injEq] at h
      exact ⟨rfl, by rw [h.1], h.2.symm⟩

theorem doCall_ok {α : Type} {env : Env} {st : St} {ev : Ev} {a : α} {tmut : RTree → RTree}
    (hf : env.fault st.trace.length = none) :
    doCall env st ev (.ok a) tmut = (.ok a, ⟨tmut st.tree, st.trace ++ [ev]⟩) := by
  unfold doCall
  rw [hf]

theorem doCall_natural_error {α : Type} {env : Env} {st : St} {ev : Ev} {e : Err}
    {tmut : RTree → RTree} (hf : env.fault st.trace.length = none) :
    doCall env st ev (Except.error e : Except Err α) tmut =
      (.error e, ⟨st.tree, st.trace ++ [ev]⟩) := by
  unfold doCall
  rw [hf]

theorem doCall_stop {α : Type} {env : Env} {n : Nat} {e : Err} {st : St}
    {ev : Ev} {res : Except Err α} {tmut : RTree → RTree}
    (henv : env.fault n = some e) (hle : st.trace.length ≤ n)
    (hgt : (doCall env st ev res tmut).2.trace.length > n) :
    (doCall env st ev res tmut).1 = .error e ∧
      (doCall env st ev res tmut).2.trace.length = n + 1 := by
  have hc : (doCall env st ev res tmut).2.trace.length = st.trace.length + 1 := doCall_calls_eq
  have hn : st.trace.length = n := by omega
  rw [doCall_fault (hn ▸ henv) ev res tmut]
  constructor
  · rfl
  · simp [hn]

theorem doCall_error_calls {α : Type} {env : Env} {st : St} {ev : Ev}
    {res : Except Err α} {tmut : RTree → RTree} {e : Err} {st' : St}
    (h : doCall env st ev res tmut = (.error e, st')) : st'.trace.length = st.trace.length + 1 := by
  have hc := @doCall_calls_eq α env st ev res tmut
  rw [h] at hc
  exact hc

theorem doCall_ok_calls_le {α : Type} {env : Env} {n : Nat} {e : Err} {st : St}
    {ev : Ev} {res : Except Err α} {tmut : RTree → RTree} {a : α} {st' : St}
    (henv : env.fault n = some e) (hle : st.trace.length ≤ n)
    (h : doCall env st ev res tmut = (.ok a, st')) : st'.trace.length ≤ n := by
  obtain ⟨hfn, _, hst'⟩ := doCall_ok_elim h
  have hne : st.trace.length ≠ n := by
    intro hc
    rw [hc, henv] at hfn
    cases hfn
  rw [hst']
  simp only [List.length_append, List.length_singleton]
  omega

-- -------------------------------------------------------------------
-- Fault propagation: the cascade stops at the first injected fault
-- -------------------------------------------------------------------

theorem handleMonitor_stops {env : Env} {n : Nat} {e : Err} {cn lbID : Str} {p : Pool} {st : St}
    (henv : env.fault n = some e) (hle : st.trace.length ≤ n)
    (hgt : (handleMonitor env cn lbID p st).2.trace.length > n) :
    (handleMonitor env cn lbID p st).1 = .error e ∧
      (handleMonitor env cn lbID p st).2.trace.length = n + 1 := by
  unfold handleMonitor at hgt ⊢
  by_cases hmid : p.monitorID = []
  · rw [if_pos hmid] at hgt ⊢
    exact absurd hgt (by dsimp only; omega)
  · rw [if_neg hmid] at hgt ⊢
    rcases hdc : doCall env st (.getMonitor p.monitorID) (lookupMonitor st.tree p.monitorID) id
      with ⟨r1, st1⟩
    rw [hdc] at hgt
    have hcalls1 : st1.trace.length = st.trace.length + 1 := by
      have h0 := @doCall_calls_eq Monitor env st (.getMonitor p.monitorID)
        (lookupMonitor st.tree p.monitorID) id
      rw [hdc] at h0
      exact h0
    cases r1 with
    | error e1 =>
      dsimp only at hgt ⊢
      have hn : st.trace.length = n := by omega
      have h0 := doCall_fault (hn ▸ henv) (Ev.getMonitor p.monitorID)
        (lookupMonitor st.tree p.monitorID) id
      rw [hdc] at h0
      have he : e1 = e := by
        have := congrArg Prod.fst h0
        simpa using this
      have hs : st1 = ⟨st.tree, st.trace ++ [Ev.getMonitor p.monitorID]⟩ := by
        have := congrArg Prod.snd h0
        simpa using this
      refine ⟨by rw [he], ?_⟩
      rw [hs]
      simp only [List.length_append, List.length_singleton]
      omega
    | ok m =>
      dsimp only at hgt ⊢
      have hst1 : st1.trace.length ≤ n := doCall_ok_calls_le henv hle hdc
      by_cases hold : (decomposeLBName (.numbered monitorPfx) m.name).1 = cn
      · rw [if_pos hold] at hgt ⊢
        exact absurd hgt (by dsimp only; omega)
      · rw [if_neg hold] at hgt ⊢
        exact doCall_stop henv hst1 hgt

theorem handlePool_stops {env : Env} {n : Nat} {e : Err} {cn lbID : Str} {p : Pool}
    {old2 : Str} {st : St}
    (henv : env.fault n = some e) (hle : st.trace.length ≤ n)
    (hgt : (handlePool env cn lbID p old2 st).2.trace.length > n) :
    (handlePool env cn lbID p old2 st).1 = .error e ∧
      (handlePool env cn lbID p old2 st).2.trace.length = n + 1 := by
  unfold handlePool at hgt ⊢
  rcases hhm : handleMonitor env cn lbID p st with ⟨r1, st1⟩
  rw [hhm] at hgt
  have hhm1 : (handleMonitor env cn lbID p st).1 = r1 := by rw [hhm]
  have hhm2 : (handleMonitor env cn lbID p st).2 = st1 := by rw [hhm]
  cases r1 with
  | error e1 =>
    dsimp only at hgt ⊢
    have h2 := handleMonitor_stops henv hle (by rw [hhm2]; exact hgt)
    rw [hhm1, hhm2] at h2
    exact h2
  | ok u =>
    dsimp only at hgt ⊢
    have hst1 : st1.trace.length ≤ n := by
      by_contra hc
      have h2 := handleMonitor_stops henv hle (by rw [hhm2]; omega)
      rw [hhm1] at h2
      simpa using h2.1
    exact doCall_stop henv hst1 hgt

theorem processListener_stops {env : Env} {n : Nat} {e : Err} {cn lbID : Str}
    {l : Listener} {st : St}
    (henv : env.fault n = some e) (hle : st.trace.length ≤ n)
    (hgt : (processListener env cn lbID l st).2.trace.length > n) :
    (processListener env cn lbID l st).1 = .error e ∧
      (processListener env cn lbID l st).2.trace.length = n + 1 := by
  unfold processListener at hgt ⊢
  by_cases hpre : listenerPfx.isPrefixOf l.name
  · rw [if_pos hpre] at hgt ⊢
    by_cases hold1 : (decomposeLBName (.numbered listenerPfx) l.name).1 = cn
    · rw [if_pos hold1] at hgt ⊢
      exact absurd hgt (by dsimp only; omega)
    · rw [if_neg hold1] at hgt ⊢
      rcases hdc : doCall env st (.getPool lbID l.id) (lookupPool st.tree l.id) id
        with ⟨r1, st1⟩
      rw [hdc] at hgt
      have hcalls1 : st1.trace.length = st.trace.length + 1 := by
        have h0 := @doCall_calls_eq Pool env st (.getPool lbID l.id) (lookupPool st.tree l.id) id
        rw [hdc] at h0
        exact h0
      cases r1 with
      | error e1 =>
        dsimp only at hgt ⊢
        have hn : st.trace.length = n := by omega
        have h0 := doCall_fault (hn ▸ henv) (Ev.getPool lbID l.id) (lookupPool st.tree l.id) id
        rw [hdc] at h0
        have he : e1 = e := by
          have := congrArg Prod.fst h0
          simpa using this
        have hs : st1 = ⟨st.tree, st.trace ++ [Ev.getPool lbID l.id]⟩ := by
          have := congrArg Prod.snd h0
          simpa using this
        refine ⟨by rw [he], ?_⟩
        rw [hs]
        simp only [List.length_append, List.length_singleton]
        omega
      | ok p =>
        dsimp only at hgt ⊢
        have hst1 : st1.trace.length ≤ n := doCall_ok_calls_le henv hle hdc
        by_cases hold2 : (decomposeLBName (.numbered poolPfx) p.name).1 = cn
        · rw [if_pos hold2] at hgt ⊢
          dsimp only at hgt ⊢
          exact doCall_stop henv hst1 hgt
        · rw [if_neg hold2] at hgt ⊢
          rcases hhp : handlePool env cn lbID p ((decomposeLBName (.numbered poolPfx) p.name).1)
            st1 with ⟨r2, st2⟩
          rw [hhp] at hgt
          have hhp1 : (handlePool env cn lbID p
              ((decomposeLBName (.numbered poolPfx) p.name).1) st1).1 = r2 := by rw [hhp]
          have hhp2 : (handlePool env cn lbID p
              ((decomposeLBName (.numbered poolPfx) p.name).1) st1).2 = st2 := by rw [hhp]
          cases r2 with
          | error e2 =>
            dsimp only at hgt ⊢
            have h2 := handlePool_stops henv hst1 (by rw [hhp2]; exact hgt)
            rw [hhp1, hhp2] at h2
            exact h2
          | ok u =>
            dsimp only at hgt ⊢
            have hst2 : st2.trace.length ≤ n := by
              by_contra hc
              have h2 := handlePool_stops henv hst1 (by rw [hhp2]; omega)
              rw [hhp1] at h2
              simpa using h2.1
            exact doCall_stop henv hst2 hgt
  · rw [if_neg hpre] at hgt ⊢
    exact absurd hgt (by dsimp only; omega)

theorem processListeners_stops {env : Env} {n : Nat} {e : Err} {cn lbID : Str}
    {ls : List Listener} {st : St}
    (henv : env.fault n = some e) (hle : st.trace.length ≤ n)
    (hgt : (processListeners env cn lbID ls st).2.trace.length > n) :
    (processListeners env cn lbID ls st).1 = .error e ∧
      (processListeners env cn lbID ls st).2.trace.length = n + 1 := by
  induction ls generalizing st with
  | nil =>
    unfold processListeners at hgt
    exact absurd hgt (by dsimp only at hgt ⊢; omega)
  | cons l ls ih =>
    unfold processListeners at hgt ⊢
    rcases hpl : processListener env cn lbID l st with ⟨r1, st1⟩
    rw [hpl] at hgt
    have hpl1 : (processListener env cn lbID l st).1 = r1 := by rw [hpl]
    have hpl2 : (processListener env cn lbID l st).2 = st1 := by rw [hpl]
    cases r1 with
    | error e1 =>
      dsimp only at hgt ⊢
      have h2 := processListener_stops henv hle (by rw [hpl2]; exact hgt)
      rw [hpl1, hpl2] at h2
      exact h2
    | ok u =>
      dsimp only at hgt ⊢
      have hst1 : st1.trace.length ≤ n := by
        by_contra hc
        have h2 := processListener_stops henv hle (by rw [hpl2]; omega)
        rw [hpl1] at h2
        simpa using h2.1
      exact ih hst1 hgt

theorem renameLoadBalancer_stops {env : Env} {n : Nat} {e : Err} {tree : RTree}
    {lbName cn : Str}
    (henv : env.fault n = some e)
    (hgt : (renameLoadBalancer env tree lbName cn).2.trace.length > n) :
    (renameLoadBalancer env tree lbName cn).1 = .error e ∧
      (renameLoadBalancer env tree lbName cn).2.trace.length = n + 1 := by
  unfold renameLoadBalancer at hgt ⊢
  dsimp only at hgt ⊢
  have hle0 : (⟨tree, []⟩ : St).trace.length ≤ n := by
    show 0 ≤ n
    omega
  rcases hdc : doCall env ⟨tree, []⟩ (.listListeners tree.lb.id) (Except.ok tree.listeners) id
    with ⟨r1, st1⟩
  rw [hdc] at hgt
  have hcalls1 : st1.trace.length = 1 := by
    have h0 := @doCall_calls_eq (List Listener) env ⟨tree, []⟩ (.listListeners tree.lb.id)
      (Except.ok tree.listeners) id
    rw [hdc] at h0
    exact h0
  cases r1 with
  | error e1 =>
    dsimp only at hgt ⊢
    have hn : (0 : Nat) = n := by omega
    have hfe : env.fault (⟨tree, []⟩ : St).trace.length = some e := by
      show env.fault 0 = some e
      rw [hn]
      exact henv
    have h0 := doCall_fault hfe (Ev.listListeners tree.lb.id) (Except.ok tree.listeners) id
    rw [hdc] at h0
    have he : e1 = e := by
      have := congrArg Prod.fst h0
      simpa using this
    refine ⟨by rw [he], by omega⟩
  | ok ls =>
    dsimp only at hgt ⊢
    have hst1 : st1.trace.length ≤ n := doCall_ok_calls_le henv hle0 hdc
    rcases hpls : processListeners env cn tree.lb.id ls st1 with ⟨r2, st2⟩
    rw [hpls] at hgt
    have hpls1 : (processListeners env cn tree.lb.id ls st1).1 = r2 := by rw [hpls]
    have hpls2 : (processListeners env cn tree.lb.id ls st1).2 = st2 := by rw [hpls]
    cases r2 with
    | error e2 =>
      dsimp only at hgt ⊢
      have h2 := processListeners_stops henv hst1 (by rw [hpls2]; exact hgt)
      rw [hpls1, hpls2] at h2
      have he : e2 = e := by
        have h1 := h2.1
        injection h1
      exact ⟨by rw [he], h2.2⟩
    | ok u =>
      dsimp only at hgt ⊢
      have hst2 : st2.trace.length ≤ n := by
        by_contra hc
        have h2 := processListeners_stops henv hst1 (by rw [hpls2]; omega)
        rw [hpls1] at h2
        simpa using h2.1
      exact doCall_stop henv hst2 hgt

-- -------------------------------------------------------------------
-- Success characterizations of the cascade steps
-- -------------------------------------------------------------------

theorem handleMonitor_ok_elim {env : Env} {cn lbID : Str} {p : Pool} {st : St}
    {r : Unit} {st' : St}
    (h : handleMonitor env cn lbID p st = (.ok r, st')) :
    (p.monitorID = [] ∧ st' = st) ∨
    (p.monitorID ≠ [] ∧ ∃ m, lookupMonitor st.tree p.monitorID = .ok m ∧
      (((decomposeLBName (.numbered monitorPfx) m.name).1 = cn ∧
        st' = ⟨st.tree, st.trace ++ [.getMonitor p.monitorID]⟩) ∨
       ((decomposeLBName (.numbered monitorPfx) m.name).1 ≠ cn ∧
        st' = ⟨setMonitorName st.tree m.id
            (replaceClusterName ((decomposeLBName (.numbered monitorPfx) m.name).1) cn m.name),
          st.trace ++ [.getMonitor p.monitorID, .updateMonitor m.id
            (replaceClusterName ((decomposeLBName (.numbered monitorPfx) m.name).1) cn m.name)
            lbID]⟩))) := by
  unfold handleMonitor at h
  by_cases hmid : p.monitorID = []
  · rw [if_pos hmid] at h
    left
    refine ⟨hmid, ?_⟩
    injection h with h1 h2
    exact h2.symm
  · rw [if_neg hmid] at h
    right
    rcases hdc : doCall env st (.getMonitor p.monitorID) (lookupMonitor st.tree p.monitorID) id
      with ⟨r1, st1⟩
    rw [hdc] at h
    cases r1 with
    | error e1 => exact absurd (congrArg Prod.fst h) (by simp)
    | ok m =>
      obtain ⟨hfn, hres, hst1⟩ := doCall_ok_elim hdc
      refine ⟨hmid, m, hres, ?_⟩
      dsimp only at h
      by_cases hold : (decomposeLBName (.numbered monitorPfx) m.name).1 = cn
      · rw [if_pos hold] at h
        left
        refine ⟨hold, ?_⟩
        injection h with h1 h2
        rw [← h2, hst1]
        rfl
      · rw [if_neg hold] at h
        right
        refine ⟨hold, ?_⟩
        obtain ⟨hfn2, hres2, hst'⟩ := doCall_ok_elim h
        rw [hst', hst1]
        simp

theorem handlePool_ok_elim {env : Env} {cn lbID : Str} {p : Pool} {old2 : Str} {st : St}
    {r : Unit} {st' : St}
    (h : handlePool env cn lbID p old2 st = (.ok r, st')) :
    ∃ st1, handleMonitor env cn lbID p st = (.ok (), st1) ∧
      st' = ⟨setPoolName st1.tree p.id (replaceClusterName old2 cn p.name),
        st1.trace ++ [.updatePool lbID p.id (replaceClusterName old2 cn p.name)]⟩ := by
  unfold handlePool at h
  rcases hhm : handleMonitor env cn lbID p st with ⟨r1, st1⟩
  rw [hhm] at h
  cases r1 with
  | error e1 => exact absurd (congrArg Prod.fst h) (by simp)
  | ok u =>
    dsimp only at h
    obtain ⟨hfn, hres, hst'⟩ := doCall_ok_elim h
    exact ⟨st1, rfl, hst'⟩

theorem processListener_ok_elim {env : Env} {cn lbID : Str} {l : Listener} {st : St}
    {r : Unit} {st' : St}
    (h : processListener env cn lbID l st = (.ok r, st')) :
    (¬ listenerPfx.isPrefixOf l.name ∧ st' = st) ∨
    (listenerPfx.isPrefixOf l.name ∧
      (decomposeLBName (.numbered listenerPfx) l.name).1 = cn ∧ st' = st) ∨
    (listenerPfx.isPrefixOf l.name ∧
      (decomposeLBName (.numbered listenerPfx) l.name).1 ≠ cn ∧
      ∃ p st2, lookupPool st.tree l.id = .ok p ∧
        (((decomposeLBName (.numbered poolPfx) p.name).1 = cn ∧
            st2 = ⟨st.tree, st.trace ++ [.getPool lbID l.id]⟩) ∨
         ((decomposeLBName (.numbered poolPfx) p.name).1 ≠ cn ∧
            handlePool env cn lbID p ((decomposeLBName (.numbered poolPfx) p.name).1)
              ⟨st.tree, st.trace ++ [.getPool lbID l.id]⟩ = (.ok (), st2))) ∧
        st' = ⟨setListenerState st2.tree l.id
            (replaceClusterName ((decomposeLBName (.numbered poolPfx) p.name).1) cn l.name)
            (l.tags.map (rewriteTag cn)),
          st2.trace ++ [.updateListener lbID l.id
            (replaceClusterName ((decomposeLBName (.numbered poolPfx) p.name).1) cn l.name)
            (l.tags.map (rewriteTag cn))]⟩) := by
  unfold processListener at h
  by_cases hpre : listenerPfx.isPrefixOf l.name
  · rw [if_pos hpre] at h
    by_cases hold1 : (decomposeLBName (.numbered listenerPfx) l.name).1 = cn
    · rw [if_pos hold1] at h
      right; left
      refine ⟨hpre, hold1, ?_⟩
      injection h with h1 h2
      exact h2.symm
    · rw [if_neg hold1] at h
      right; right
      refine ⟨hpre, hold1, ?_⟩
      rcases hdc : doCall env st (.getPool lbID l.id) (lookupPool st.tree l.id) id
        with ⟨r1, st1⟩
      rw [hdc] at h
      cases r1 with
      | error e1 => exact absurd (congrArg Prod.fst h) (by simp)
      | ok p =>
        obtain ⟨hfn, hres, hst1⟩ := doCall_ok_elim hdc
        dsimp only at h
        by_cases hold2 : (decomposeLBName (.numbered poolPfx) p.name).1 = cn
        · rw [if_pos hold2] at h
          dsimp only at h
          obtain ⟨hfn2, hres2, hst'⟩ := doCall_ok_elim h
          exact ⟨p, st1, hres, Or.inl ⟨hold2, by rw [hst1]; rfl⟩, hst'⟩
        · rw [if_neg hold2] at h
          rcases hhp : handlePool env cn lbID p ((decomposeLBName (.numbered poolPfx) p.name).1)
            st1 with ⟨r2, st2⟩
          rw [hhp] at h
          cases r2 with
          | error e2 => exact absurd (congrArg Prod.fst h) (by simp)
          | ok u =>
            dsimp only at h
            obtain ⟨hfn3, hres3, hst'⟩ := doCall_ok_elim h
            rw [hst1] at hhp
            exact ⟨p, st2, hres, Or.inr ⟨hold2, hhp⟩, hst'⟩
  · rw [if_neg hpre] at h
    left
    refine ⟨hpre, ?_⟩
    injection h with h1 h2
    exact h2.symm

/-- The shapes of the accessor-call subsequence a single listener can
contribute to the trace: nothing (skipped), or pool fetch followed by,
in order, optionally monitor fetch, optionally monitor update, then
optionally pool update, then the listener update — the monitor update
(if any) strictly before the pool update (if any), strictly before the
listener update. -/
def lChunk (lbID : Str) (c : List Ev) : Prop :=
  c = [] ∨
  (∃ lid nm tg, c = [.getPool lbID lid, .updateListener lbID lid nm tg]) ∨
  (∃ lid pid nm1 nm2 tg,
    c = [.getPool lbID lid, .updatePool lbID pid nm1, .updateListener lbID lid nm2 tg]) ∨
  (∃ lid mid pid nm1 nm2 tg,
    c = [.getPool lbID lid, .getMonitor mid, .updatePool lbID pid nm1,
         .updateListener lbID lid nm2 tg]) ∨
  (∃ lid mid nmm pid nm1 nm2 tg,
    c = [.getPool lbID lid, .getMonitor mid, .updateMonitor mid nmm lbID,
         .updatePool lbID pid nm1, .updateListener lbID lid nm2 tg])

theorem lookupMonitor_ok_id {t : RTree} {mid : Str} {m : Monitor}
    (h : lookupMonitor t mid = .ok m) : m.id = mid := by
  unfold lookupMonitor at h
  cases hf : t.monitors.find? (fun m => m.id == mid) with
  | none => rw [hf] at h; cases h
  | some m' =>
    rw [hf] at h
    injection h with h1
    have h2 := List.find?_some hf
    rw [← h1]
    simpa using h2

theorem processListener_ok_chunk {env : Env} {cn lbID : Str} {l : Listener} {st : St}
    {r : Unit} {st' : St}
    (h : processListener env cn lbID l st = (.ok r, st')) :
    ∃ c, st'.trace = st.trace ++ c ∧ lChunk lbID c := by
  rcases processListener_ok_elim h with ⟨_, rfl⟩ | ⟨_, _, rfl⟩ |
    ⟨hpre, hold1, p, st2, hp, hmid, rfl⟩
  · exact ⟨[], by simp, Or.inl rfl⟩
  · exact ⟨[], by simp, Or.inl rfl⟩
  · rcases hmid with ⟨hold2, rfl⟩ | ⟨hold2, hhp⟩
    · refine ⟨[.getPool lbID l.id, .updateListener lbID l.id
        (replaceClusterName ((decomposeLBName (.numbered poolPfx) p.name).1) cn l.name)
        (l.tags.map (rewriteTag cn))], by simp, ?_⟩
      exact Or.inr (Or.inl ⟨l.id, _, _, rfl⟩)
    · obtain ⟨st1m, hhm, rfl⟩ := handlePool_ok_elim hhp
      rcases handleMonitor_ok_elim hhm with ⟨hmnil, rfl⟩ | ⟨hmne, m, hlm, hcase⟩
      · refine ⟨[.getPool lbID l.id,
          .updatePool lbID p.id (replaceClusterName ((decomposeLBName (.numbered poolPfx) p.name).1) cn p.name),
          .updateListener lbID l.id
            (replaceClusterName ((decomposeLBName (.numbered poolPfx) p.name).1) cn l.name)
            (l.tags.map (rewriteTag cn))], by simp, ?_⟩
        exact Or.inr (Or.inr (Or.inl ⟨l.id, p.id, _, _, _, rfl⟩))
      · rcases hcase with ⟨holdm, rfl⟩ | ⟨holdm, rfl⟩
        · refine ⟨[.getPool lbID l.id, .getMonitor p.monitorID,
            .updatePool lbID p.id (replaceClusterName ((decomposeLBName (.numbered poolPfx) p.name).1) cn p.name),
            .updateListener lbID l.id
              (replaceClusterName ((decomposeLBName (.numbered poolPfx) p.name).1) cn l.name)
              (l.tags.map (rewriteTag cn))], by simp, ?_⟩
          exact Or.inr (Or.inr (Or.inr (Or.inl ⟨l.id, p.monitorID, p.id, _, _, _, rfl⟩)))
        · refine ⟨[.getPool lbID l.id, .getMonitor p.monitorID,
            .updateMonitor m.id
              (replaceClusterName ((decomposeLBName (.numbered monitorPfx) m.name).1) cn m.name) lbID,
            .updatePool lbID p.id (replaceClusterName ((decomposeLBName (.numbered poolPfx) p.name).1) cn p.name),
            .updateListener lbID l.id
              (replaceClusterName ((decomposeLBName (.numbered poolPfx) p.name).1) cn l.name)
              (l.tags.map (rewriteTag cn))], by simp, ?_⟩
          have hmidm : m.id = p.monitorID := lookupMonitor_ok_id hlm
          exact Or.inr (Or.inr (Or.inr (Or.inr ⟨l.id, p.monitorID, _, p.id, _, _, _, by
            rw [hmidm]⟩)))

theorem processListeners_ok_chunks {env : Env} {cn lbID : Str} {ls : List Listener} {st : St}
    {r : Unit} {st' : St}
    (h : processListeners env cn lbID ls st = (.ok r, st')) :
    ∃ cs : List (List Ev), st'.trace = st.trace ++ cs.join ∧ ∀ c ∈ cs, lChunk lbID c := by
  induction ls generalizing st with
  | nil =>
    unfold processListeners at h
    injection h with h1 h2
    exact ⟨[], by rw [← h2]; simp, by simp⟩
  | cons l ls ih =>
    unfold processListeners at h
    rcases hpl : processListener env cn lbID l st with ⟨r1, st1⟩
    rw [hpl] at h
    cases r1 with
    | error e1 => exact absurd (congrArg Prod.fst h) (by simp)
    | ok u =>
      dsimp only at h
      obtain ⟨c, hc, hck⟩ := processListener_ok_chunk hpl
      obtain ⟨cs, hcs, hcsk⟩ := ih h
      refine ⟨c :: cs, ?_, ?_⟩
      · rw [hcs, hc]
        simp
      · intro c' hc'
        rcases List.mem_cons.1 hc' with rfl | hmem
        · exact hck
        · exact hcsk c' hmem

-- The orchestrator never changes the load balancer record except in the
-- final update call.

theorem doCall_tree_lb {α : Type} {env : Env} {st : St} {ev : Ev} {res : Except Err α}
    {tmut : RTree → RTree} (hmut : ∀ t, (tmut t).lb = t.lb) :
    (doCall env st ev res tmut).2.tree.lb = st.tree.lb := by
  unfold doCall
  cases env.fault st.trace.length with
  | some e => rfl
  | none => cases res with
    | error e => rfl
    | ok a => exact hmut st.tree

theorem handleMonitor_lb (env : Env) (cn lbID : Str) (p : Pool) (st : St) :
    (handleMonitor env cn lbID p st).2.tree.lb = st.tree.lb := by
  unfold handleMonitor
  by_cases hmid : p.monitorID = []
  · rw [if_pos hmid]
  · rw [if_neg hmid]
    rcases hdc : doCall env st (.getMonitor p.monitorID) (lookupMonitor st.tree p.monitorID) id
      with ⟨r1, st1⟩
    have h1 : st1.tree.lb = st.tree.lb := by
      have := @doCall_tree_lb Monitor env st (Ev.getMonitor p.monitorID)
        (lookupMonitor st.tree p.monitorID) id (fun t => rfl)
      rw [hdc] at this
      exact this
    cases r1 with
    | error e1 => exact h1
    | ok m =>
      dsimp only
      by_cases hold : (decomposeLBName (.numbered monitorPfx) m.name).1 = cn
      · rw [if_pos hold]; exact h1
      · rw [if_neg hold]
        have := @doCall_tree_lb Unit env st1
          (Ev.updateMonitor m.id
            (replaceClusterName ((decomposeLBName (.numbered monitorPfx) m.name).1) cn m.name)
            lbID)
          (Except.ok ())
          (fun t => setMonitorName t m.id
            (replaceClusterName ((decomposeLBName (.numbered monitorPfx) m.name).1) cn m.name))
          (fun t => rfl)
        rw [this, h1]

theorem handlePool_lb (env : Env) (cn lbID : Str) (p : Pool) (old2 : Str) (st : St) :
    (handlePool env cn lbID p old2 st).2.tree.lb = st.tree.lb := by
  unfold handlePool
  rcases hhm : handleMonitor env cn lbID p st with ⟨r1, st1⟩
  have h1 : st1.tree.lb = st.tree.lb := by
    have := handleMonitor_lb env cn lbID p st
    rw [hhm] at this
    exact this
  cases r1 with
  | error e1 => exact h1
  | ok u =>
    dsimp only
    have := @doCall_tree_lb Unit env st1 (Ev.updatePool lbID p.id (replaceClusterName old2 cn p.name))
      (Except.ok ()) (fun t => setPoolName t p.id (replaceClusterName old2 cn p.name))
      (fun t => rfl)
    rw [this, h1]

theorem processListener_lb (env : Env) (cn lbID : Str) (l : Listener) (st : St) :
    (processListener env cn lbID l st).2.tree.lb = st.tree.lb := by
  unfold processListener
  by_cases hpre : listenerPfx.isPrefixOf l.name
  · rw [if_pos hpre]
    by_cases hold1 : (decomposeLBName (.numbered listenerPfx) l.name).1 = cn
    · rw [if_pos hold1]
    · rw [if_neg hold1]
      rcases hdc : doCall env st (.getPool lbID l.id) (lookupPool st.tree l.id) id
        with ⟨r1, st1⟩
      have h1 : st1.tree.lb = st.tree.lb := by
        have := @doCall_tree_lb Pool env st (Ev.getPool lbID l.id) (lookupPool st.tree l.id)
          id (fun t => rfl)
        rw [hdc] at this
        exact this
      cases r1 with
      | error e1 => exact h1
      | ok p =>
        dsimp only
        by_cases hold2 : (decomposeLBName (.numbered poolPfx) p.name).1 = cn
        · rw [if_pos hold2]
          dsimp only
          have := @doCall_tree_lb Unit env st1
            (Ev.updateListener lbID l.id
              (replaceClusterName ((decomposeLBName (.numbered poolPfx) p.name).1) cn l.name)
              (l.tags.map (rewriteTag cn)))
            (Except.ok ())
            (fun t => setListenerState t l.id
              (replaceClusterName ((decomposeLBName (.numbered poolPfx) p.name).1) cn l.name)
              (l.tags.map (rewriteTag cn)))
            (fun t => rfl)
          rw [this, h1]
        · rw [if_neg hold2]
          rcases hhp : handlePool env cn lbID p
            ((decomposeLBName (.numbered poolPfx) p.name).1) st1 with ⟨r2, st2⟩
          have h2 : st2.tree.lb = st.tree.lb := by
            have := handlePool_lb env cn lbID p ((decomposeLBName (.numbered poolPfx) p.name).1) st1
            rw [hhp] at this
            rw [this, h1]
          cases r2 with
          | error e2 => exact h2
          | ok u =>
            dsimp only
            have := @doCall_tree_lb Unit env st2
              (Ev.updateListener lbID l.id
                (replaceClusterName ((decomposeLBName (.numbered poolPfx) p.name).1) cn l.name)
                (l.tags.map (rewriteTag cn)))
              (Except.ok ())
              (fun t => setListenerState t l.id
                (replaceClusterName ((decomposeLBName (.numbered poolPfx) p.name).1) cn l.name)
                (l.tags.map (rewriteTag cn)))
              (fun t => rfl)
            rw [this, h2]
  · rw [if_neg hpre]

theorem processListeners_lb (env : Env) (cn lbID : Str) (ls : List Listener) (st : St) :
    (processListeners env cn lbID ls st).2.tree.lb = st.tree.lb := by
  induction ls generalizing st with
  | nil => rfl
  | cons l ls ih =>
    unfold processListeners
    rcases hpl : processListener env cn lbID l st with ⟨r1, st1⟩
    have h1 : st1.tree.lb = st.tree.lb := by
      have := processListener_lb env cn lbID l st
      rw [hpl] at this
      exact this
    cases r1 with
    | error e1 => exact h1
    | ok u =>
      dsimp only
      rw [ih st1, h1]

theorem renameLoadBalancer_ok_elim {env : Env} {tree : RTree} {lbName cn : Str}
    {r : LoadBalancer} {st' : St}
    (h : renameLoadBalancer env tree lbName cn = (.ok r, st')) :
    ∃ st2, processListeners env cn tree.lb.id tree.listeners
        ⟨tree, [Ev.listListeners tree.lb.id]⟩ = (.ok (), st2) ∧
      st' = ⟨setLB st2.tree lbName (tree.lb.tags.map (rewriteTag cn)),
        st2.trace ++ [.updateLoadBalancer tree.lb.id lbName
          (tree.lb.tags.map (rewriteTag cn))]⟩ := by
  unfold renameLoadBalancer at h
  dsimp only at h
  rcases hdc : doCall env ⟨tree, []⟩ (.listListeners tree.lb.id) (Except.ok tree.listeners) id
    with ⟨r1, st1⟩
  rw [hdc] at h
  cases r1 with
  | error e1 => exact absurd (congrArg Prod.fst h) (by simp)
  | ok ls =>
    obtain ⟨hfn, hres, hst1⟩ := doCall_ok_elim hdc
    have hls : ls = tree.listeners := (Except.ok.inj hres).symm
    dsimp only at h
    rcases hpls : processListeners env cn tree.lb.id ls st1 with ⟨r2, st2⟩
    rw [hpls] at h
    cases r2 with
    | error e2 => exact absurd (congrArg Prod.fst h) (by simp)
    | ok u =>
      dsimp only at h
      obtain ⟨hfn3, hres3, hst'⟩ := doCall_ok_elim h
      refine ⟨st2, ?_, hst'⟩
      rw [← hls]
      have hst1' : st1 = ⟨tree, [Ev.listListeners tree.lb.id]⟩ := by
        rw [hst1]
        rfl
      rw [← hst1']
      rw [hpls]

/-- On success, the final tree's load balancer carries exactly the new
name and rewritten tags, and everything else about it is unchanged. -/
theorem renameLoadBalancer_ok_lb {env : Env} {tree : RTree} {lbName cn : Str}
    {r : LoadBalancer} {st' : St}
    (h : renameLoadBalancer env tree lbName cn = (.ok r, st')) :
    st'.tree.lb = ⟨tree.lb.id, lbName, tree.lb.tags.map (rewriteTag cn)⟩ := by
  obtain ⟨st2, hpls, hst'⟩ := renameLoadBalancer_ok_elim h
  have hlb : st2.tree.lb = tree.lb := by
    have := processListeners_lb env cn tree.lb.id tree.listeners ⟨tree, [Ev.listListeners tree.lb.id]⟩
    rw [hpls] at this
    exact this
  rw [hst']
  show (setLB st2.tree lbName (tree.lb.tags.map (rewriteTag cn))).lb =
    (⟨tree.lb.id, lbName, tree.lb.tags.map (rewriteTag cn)⟩ : LoadBalancer)
  unfold setLB
  rw [hlb]

-- -------------------------------------------------------------------
-- findSub / replaceClusterName characterization
-- -------------------------------------------------------------------

theorem bool_eq_false {b : Bool} (h : ¬ b = true) : b = false := by
  cases b
  · rfl
  · exact absurd rfl h

theorem findSub_some {hay needle : Str} {i : Nat} (h : findSub hay needle = some i) :
    needle.isPrefixOf (hay.drop i) = true ∧
      ∀ j < i, needle.isPrefixOf (hay.drop j) = false := by
  induction hay generalizing i with
  | nil =>
    unfold findSub at h
    by_cases hp : needle.isPrefixOf []
    · rw [if_pos hp] at h
      injection h with h1
      subst h1
      exact ⟨hp, fun j hj => by omega⟩
    · rw [if_neg hp] at h
      cases h
  | cons x t ih =>
    unfold findSub at h
    by_cases hp : needle.isPrefixOf (x :: t)
    · rw [if_pos hp] at h
      injection h with h1
      subst h1
      exact ⟨hp, fun j hj => by omega⟩
    · rw [if_neg hp] at h
      dsimp only at h
      cases hf : findSub t needle with
      | none => rw [hf] at h; cases h
      | some j =>
        rw [hf] at h
        simp only [Option.map_some'] at h
        injection h with h1
        subst h1
        obtain ⟨h2, h3⟩ := ih hf
        refine ⟨h2, ?_⟩
        intro k hk
        cases k with
        | zero => exact bool_eq_false hp
        | succ k' => exact h3 k' (by omega)

theorem findSub_none {hay needle : Str} (h : findSub hay needle = none) :
    ∀ j, needle.isPrefixOf (hay.drop j) = false := by
  induction hay with
  | nil =>
    unfold findSub at h
    by_cases hp : needle.isPrefixOf []
    · rw [if_pos hp] at h; cases h
    · intro j
      rw [List.drop_nil]
      exact bool_eq_false hp
  | cons x t ih =>
    unfold findSub at h
    by_cases hp : needle.isPrefixOf (x :: t)
    · rw [if_pos hp] at h; cases h
    · rw [if_neg hp] at h
      dsimp only at h
      cases hf : findSub t needle with
      | some j => rw [hf] at h; simp at h
      | none =>
        intro j
        cases j with
        | zero => exact bool_eq_false hp
        | succ j' => exact ih hf j'

theorem replaceClusterName_split {oldCN newCN s : Str} {i : Nat}
    (hf : findSub s oldCN = some i) :
    s = s.take i ++ oldCN ++ s.drop (i + oldCN.length) ∧
      replaceClusterName oldCN newCN s = s.take i ++ newCN ++ s.drop (i + oldCN.length) := by
  obtain ⟨h1, _⟩ := findSub_some hf
  obtain ⟨t, ht⟩ := List.isPrefixOf_iff_prefix.1 h1
  have hdrop : s.drop (i + oldCN.length) = t := by
    have h2 : (s.drop i).drop oldCN.length = t := by
      rw [← ht, List.drop_left]
    rw [← h2, List.drop_drop, Nat.add_comm]
  constructor
  · conv_lhs => rw [← List.take_append_drop i s]
    rw [← ht, hdrop]
    simp
  · unfold replaceClusterName
    rw [hf]

theorem replaceClusterName_self (x s : Str) : replaceClusterName x x s = s := by
  cases hf : findSub s x with
  | none =>
    unfold replaceClusterName
    rw [hf]
  | some i =>
    obtain ⟨h1, h2⟩ := replaceClusterName_split hf
    rw [h2, ← h1]

-- -------------------------------------------------------------------
-- lastIndexByte characterization
-- -------------------------------------------------------------------

theorem lastIndexByte_none {l : Str} {c : Char} : lastIndexByte l c = none ↔ c ∉ l := by
  induction l with
  | nil => simp [lastIndexByte]
  | cons x t ih =>
    unfold lastIndexByte
    cases hf : lastIndexByte t c with
    | some i =>
      constructor
      · intro h; cases h
      · intro h
        exfalso
        have hct : c ∈ t := by
          by_contra hc
          rw [ih.2 hc] at hf
          cases hf
        exact h (List.mem_cons_of_mem x hct)
    | none =>
      by_cases hx : x = c
      · rw [if_pos hx]
        constructor
        · intro h; cases h
        · intro h
          exact absurd (by rw [hx]; exact List.mem_cons_self c t) h
      · rw [if_neg hx]
        constructor
        · intro _ hmem
          rcases List.mem_cons.1 hmem with h1 | h2
          · exact hx h1.symm
          · exact ih.1 hf h2
        · intro _
          rfl

theorem lastIndexByte_some {l : Str} {c : Char} {i : Nat}
    (h : lastIndexByte l c = some i) :
    ∃ a b, l = a ++ c :: b ∧ a.length = i ∧ c ∉ b := by
  induction l generalizing i with
  | nil => cases h
  | cons x t ih =>
    unfold lastIndexByte at h
    cases hf : lastIndexByte t c with
    | some j =>
      rw [hf] at h
      injection h with h1
      obtain ⟨a, b, hab, hlen, hnb⟩ := ih hf
      exact ⟨x :: a, b, by rw [hab]; rfl, by simp [hlen, ← h1], hnb⟩
    | none =>
      rw [hf] at h
      by_cases hx : x = c
      · rw [if_pos hx] at h
        injection h with h1
        refine ⟨[], t, by rw [hx]; rfl, by simp [← h1], lastIndexByte_none.1 hf⟩
      · rw [if_neg hx] at h
        cases h

deriving instance DecidableEq for Except

-- -------------------------------------------------------------------
-- Claim theorems
-- -------------------------------------------------------------------

/-- C10: `splitExportLocation` returns an error exactly when the last
`':'` byte in the path is absent or at index 0; otherwise it returns
address = the substring before the last `':'` and location = the
substring after it, so that `address ++ ":" ++ location` reconstructs
the original path and the location contains no `':'`. -/
theorem c10_splitExportLocation_contract (path : Str) :
    (splitExportLocation path = none ↔
      (':' ∉ path ∨ ∃ t, path = ':' :: t ∧ ':' ∉ t)) ∧
    (∀ a l, splitExportLocation path = some (a, l) →
      path = a ++ ':' :: l ∧ ':' ∉ l ∧ a ≠ []) := by
  unfold splitExportLocation
  cases hf : lastIndexByte path ':' with
  | none =>
    refine ⟨⟨fun _ => Or.inl (lastIndexByte_none.1 hf), fun _ => rfl⟩, ?_⟩
    intro a l h
    cases h
  | some d =>
    dsimp only
    obtain ⟨a0, b0, hab, hlen, hnb⟩ := lastIndexByte_some hf
    by_cases hd : d = 0
    · rw [if_pos hd]
      subst hd
      have ha0 : a0 = [] := List.length_eq_zero.1 hlen
      subst ha0
      refine ⟨⟨fun _ => Or.inr ⟨b0, by simpa using hab, hnb⟩, fun _ => rfl⟩, ?_⟩
      intro a l h
      cases h
    · rw [if_neg hd]
      have htake : path.take d = a0 := by
        rw [hab]
        exact List.take_left' hlen
      have hdrop : path.drop (d + 1) = b0 := by
        rw [hab, ← hlen]
        exact drop_len_cons_append a0 ':' b0
      constructor
      · constructor
        · intro h; cases h
        · intro h
          exfalso
          rcases h with h1 | ⟨t, ht, hnt⟩
          · exact h1 (by rw [hab]; simp)
          · rw [ht] at hab
            cases a0 with
            | nil => simp at hlen; exact hd hlen.symm
            | cons y a0' =>
              injection hab with hy htt
              exact hnt (by rw [htt]; simp)
      · intro a l h
        injection h with h1
        have hpa : a = a0 := by
          have := congrArg Prod.fst h1
          dsimp at this
          rw [← this, htake]
        have hpl : l = b0 := by
          have := congrArg Prod.snd h1
          dsimp at this
          rw [← this, hdrop]
        subst hpa
        subst hpl
        refine ⟨hab, hnb, ?_⟩
        intro hnil
        rw [hnil] at hlen
        simp at hlen
        exact hd hlen.symm

/-- Witness for C10 at a concrete export-location path. -/
theorem c10_witness :
    "addr1:port,addr2:port:/location".toList =
        "addr1:port,addr2:port".toList ++ ':' :: "/location".toList ∧
      ':' ∉ "/location".toList ∧ "addr1:port,addr2:port".toList ≠ [] :=
  (c10_splitExportLocation_contract "addr1:port,addr2:port:/location".toList).2
    "addr1:port,addr2:port".toList "/location".toList (by decide)

/-- C7: `decomposeLBName` matches
`prefix + servicePrefix + "(clusterIdentity)_(namespace)_(name)"`,
capturing the cluster identity greedily (it may contain the separator)
and the last two fields as single non-separator segments; when no match
exists it returns the absent value (three empty strings), never an
error (the function is total). -/
theorem c7_decomposeLBName_contract (rp : ResPfx) (raw : Str) :
    (decomposeLBName rp raw = ([], [], []) ↔
      ¬ ∃ pre P a b c post, PfxLang rp P ∧
        raw = pre ++ P ++ (a ++ sep :: (b ++ sep :: (c ++ post))) ∧
        a ≠ [] ∧ b ≠ [] ∧ c ≠ [] ∧ (∀ x ∈ b, x ≠ sep) ∧ (∀ x ∈ c, x ≠ sep)) ∧
    (∀ a b c, decomposeLBName rp raw = (a, b, c) → a ≠ [] →
      ∃ pre P post, PfxLang rp P ∧
        raw = pre ++ P ++ (a ++ sep :: (b ++ sep :: (c ++ post))) ∧
        b ≠ [] ∧ c ≠ [] ∧ (∀ x ∈ b, x ≠ sep) ∧ (∀ x ∈ c, x ≠ sep) ∧
        (∀ a' b' c' post', raw = pre ++ P ++ (a' ++ sep :: (b' ++ sep :: (c' ++ post'))) →
          a' ≠ [] → b' ≠ [] → c' ≠ [] → (∀ x ∈ b', x ≠ sep) → (∀ x ∈ c', x ≠ sep) →
          a'.length ≤ a.length)) := by
  constructor
  · cases hs : searchName rp raw with
    | none =>
      rw [decomposeLBName_of_search_none hs]
      simp only [true_iff]
      rintro ⟨pre, P, a, b, c, post, hP, hraw, ha, hb, hc, hsb, hsc⟩
      exact searchName_eq_none hs pre P a b c post hP hraw ha hb hc hsb hsc
    | some t =>
      obtain ⟨a, b, c⟩ := t
      rw [decomposeLBName_of_search_some hs]
      obtain ⟨pre, P, post, hP, hraw, ha, hb, hc, hsb, hsc, _, _⟩ := searchName_eq_some hs
      constructor
      · intro h
        exfalso
        have := congrArg (fun x => x.1) h
        exact ha (by simpa using this)
      · intro h
        exact absurd ⟨pre, P, a, b, c, post, hP, hraw, ha, hb, hc, hsb, hsc⟩ h
  · intro a b c hdec ha
    cases hs : searchName rp raw with
    | none =>
      rw [decomposeLBName_of_search_none hs] at hdec
      exfalso
      have := congrArg (fun x => x.1) hdec
      exact ha (by simpa using this.symm)
    | some t =>
      rw [decomposeLBName_of_search_some hs] at hdec
      rw [hdec] at hs
      obtain ⟨pre, P, post, hP, hraw, _, hb, hc, hsb, hsc, _, hgr⟩ := searchName_eq_some hs
      exact ⟨pre, P, post, hP, hraw, hb, hc, hsb, hsc, hgr⟩

/-- Witness for C7 at a concrete name with an underscore-bearing
cluster identity. -/
theorem c7_witness :
    ∃ pre P post, PfxLang ResPfx.plain P ∧
      "kube_service_cl_A_ns1_svc1".toList =
        pre ++ P ++ ("cl_A".toList ++ sep :: ("ns1".toList ++ sep :: ("svc1".toList ++ post))) ∧
      "ns1".toList ≠ [] ∧ "svc1".toList ≠ [] ∧
      (∀ x ∈ "ns1".toList, x ≠ sep) ∧ (∀ x ∈ "svc1".toList, x ≠ sep) ∧
      (∀ a' b' c' post',
        "kube_service_cl_A_ns1_svc1".toList =
          pre ++ P ++ (a' ++ sep :: (b' ++ sep :: (c' ++ post'))) →
        a' ≠ [] → b' ≠ [] → c' ≠ [] → (∀ x ∈ b', x ≠ sep) → (∀ x ∈ c', x ≠ sep) →
        a'.length ≤ "cl_A".toList.length) :=
  (c7_decomposeLBName_contract ResPfx.plain "kube_service_cl_A_ns1_svc1".toList).2
    "cl_A".toList "ns1".toList "svc1".toList (by decide) (by decide)

/-- C4: for every load balancer whose name does not begin with the
managed service prefix, `migrate` returns the load balancer unchanged,
issues no accessor calls (in particular no updates), and reports no
error.  (The caller guard is modelled from the spec via the source's
`lbHasOldClusterName`.) -/
theorem c4_migrate_not_managed_noop (env : Env) (tree : RTree) (cn ns nm : Str)
    (h : servicePfx.isPrefixOf tree.lb.name = false) :
    migrate env tree cn ns nm = (.ok tree.lb, ⟨tree, []⟩) := by
  unfold migrate
  have hg : lbHasOldClusterName tree.lb cn = false := by
    unfold lbHasOldClusterName
    rw [h]
    simp
  rw [hg]
  simp

/-- Witness for C4 at a concrete foreign load balancer. -/
theorem c4_witness :
    migrate envOK
      ⟨⟨"lb1".toList, "someone-elses-lb".toList, []⟩, [], [], []⟩
      "B".toList "ns".toList "svc".toList =
      (.ok ⟨"lb1".toList, "someone-elses-lb".toList, []⟩,
        ⟨⟨⟨"lb1".toList, "someone-elses-lb".toList, []⟩, [], [], []⟩, []⟩) :=
  c4_migrate_not_managed_noop envOK
    ⟨⟨"lb1".toList, "someone-elses-lb".toList, []⟩, [], [], []⟩
    "B".toList "ns".toList "svc".toList (by decide)

theorem lbHasOldClusterName_composeName_false {cn ns nm : Str}
    (hcn : cn ≠ []) (hns : ns ≠ []) (hnm : nm ≠ [])
    (h1 : ∀ x ∈ ns, x ≠ sep) (h2 : ∀ x ∈ nm, x ≠ sep)
    (lb : LoadBalancer) (hname : lb.name = composeName cn ns nm) :
    lbHasOldClusterName lb cn = false := by
  unfold lbHasOldClusterName
  rw [hname]
  have hpre : servicePfx.isPrefixOf (composeName cn ns nm) = true :=
    List.isPrefixOf_iff_prefix.2 ⟨cn ++ sep :: (ns ++ sep :: nm), rfl⟩
  simp only [hpre, if_true, decompose_composeName hcn hns hnm h1 h2]
  simp

/-- C3: invoking `migrate` a second time, starting from the tree state
left by a completed first invocation, leaves the tree unchanged — i.e.
migrate-twice yields the same final tree as migrate-once.  The caller
is modelled from the spec: the renamed load balancer carries the
spec-encoded target name, whose decomposed identity equals the target,
so the source's `lbHasOldClusterName` guard makes the second invocation
a no-op.  Assumes a nonempty target identity and nonempty
separator-free namespace/name (the §3 StructuredName invariant). -/
theorem c3_migrate_idempotent (env : Env) (tree : RTree) (cn ns nm : Str)
    (hcn : cn ≠ []) (hns : ns ≠ []) (hnm : nm ≠ [])
    (h1 : ∀ x ∈ ns, x ≠ sep) (h2 : ∀ x ∈ nm, x ≠ sep)
    (r : LoadBalancer) (st' : St)
    (hok : migrate env tree cn ns nm = (.ok r, st')) :
    (migrate env st'.tree cn ns nm).2.tree = st'.tree := by
  unfold migrate at hok
  by_cases hg : lbHasOldClusterName tree.lb cn = true
  · rw [if_pos hg] at hok
    have hlb : st'.tree.lb =
        ⟨tree.lb.id, composeName cn ns nm, tree.lb.tags.map (rewriteTag cn)⟩ :=
      renameLoadBalancer_ok_lb hok
    have hgf : lbHasOldClusterName st'.tree.lb cn = false :=
      lbHasOldClusterName_composeName_false hcn hns hnm h1 h2 _ (by rw [hlb])
    unfold migrate
    rw [hgf]
    simp
  · rw [if_neg hg] at hok
    injection hok with hr hst
    rw [← hst]
    unfold migrate
    have hg' : lbHasOldClusterName (⟨tree, []⟩ : St).tree.lb cn ≠ true := hg
    rw [if_neg hg']

/-- Witness for C3: a concrete one-listener tree with a stale identity,
migrated to a fresh identity, then migrated again. -/
theorem c3_witness :
    (migrate envOK
      (migrate envOK
        ⟨⟨"lb1".toList, "kube_service_A_ns1_svc1".toList, []⟩,
         [⟨"l1".toList, "listener_0_kube_service_A_ns1_svc1".toList, []⟩],
         [("l1".toList, ⟨"p1".toList, "pool_0_kube_service_A_ns1_svc1".toList, []⟩)],
         []⟩
        "B".toList "ns1".toList "svc1".toList).2.tree
      "B".toList "ns1".toList "svc1".toList).2.tree =
    (migrate envOK
      ⟨⟨"lb1".toList, "kube_service_A_ns1_svc1".toList, []⟩,
       [⟨"l1".toList, "listener_0_kube_service_A_ns1_svc1".toList, []⟩],
       [("l1".toList, ⟨"p1".toList, "pool_0_kube_service_A_ns1_svc1".toList, []⟩)],
       []⟩
      "B".toList "ns1".toList "svc1".toList).2.tree :=
  c3_migrate_idempotent envOK
    ⟨⟨"lb1".toList, "kube_service_A_ns1_svc1".toList, []⟩,
     [⟨"l1".toList, "listener_0_kube_service_A_ns1_svc1".toList, []⟩],
     [("l1".toList, ⟨"p1".toList, "pool_0_kube_service_A_ns1_svc1".toList, []⟩)],
     []⟩
    "B".toList "ns1".toList "svc1".toList
    (by decide) (by decide) (by decide) (by decide) (by decide)
    ⟨"lb1".toList, "kube_service_B_ns1_svc1".toList, ([] : List Str)⟩
    (migrate envOK
      ⟨⟨"lb1".toList, "kube_service_A_ns1_svc1".toList, []⟩,
       [⟨"l1".toList, "listener_0_kube_service_A_ns1_svc1".toList, []⟩],
       [("l1".toList, ⟨"p1".toList, "pool_0_kube_service_A_ns1_svc1".toList, []⟩)],
       []⟩
      "B".toList "ns1".toList "svc1".toList).2
    (by decide)

/-- C2: in the sequence of accessor calls issued by a successful
`renameLoadBalancer` invocation, the trace is the listener listing,
followed by per-listener chunks in which the monitor update (if any)
precedes the pool update, which precedes the listener update, followed
by the single load-balancer update as the very last call; no chunk
contains a load-balancer update. -/
theorem c2_rename_trace_order (env : Env) (tree : RTree) (lbName cn : Str)
    (r : LoadBalancer) (st' : St)
    (h : renameLoadBalancer env tree lbName cn = (.ok r, st')) :
    ∃ cs : List (List Ev),
      st'.trace = Ev.listListeners tree.lb.id :: (cs.join ++
        [Ev.updateLoadBalancer tree.lb.id lbName (tree.lb.tags.map (rewriteTag cn))]) ∧
      (∀ c ∈ cs, lChunk tree.lb.id c) ∧
      (∀ c ∈ cs, ∀ i nmx tg, Ev.updateLoadBalancer i nmx tg ∉ c) := by
  obtain ⟨st2, hpls, hst'⟩ := renameLoadBalancer_ok_elim h
  obtain ⟨cs, hcs, hck⟩ := processListeners_ok_chunks hpls
  refine ⟨cs, ?_, hck, ?_⟩
  · rw [hst']
    dsimp only
    rw [hcs]
    simp
  · intro c hc i nmx tg hmem
    rcases hck c hc with rfl | ⟨lid, nm2, tg2, rfl⟩ | ⟨lid, pid, nm1, nm2, tg2, rfl⟩ |
      ⟨lid, mid, pid, nm1, nm2, tg2, rfl⟩ | ⟨lid, mid, nmm, pid, nm1, nm2, tg2, rfl⟩
    all_goals simp at hmem

/-- Witness for C2 on a concrete tree with a full
monitor/pool/listener cascade. -/
theorem c2_witness :
    ∃ cs : List (List Ev),
      (renameLoadBalancer envOK
        ⟨⟨"lb1".toList, "kube_service_A_ns1_svc1".toList, []⟩,
         [⟨"l1".toList, "listener_0_kube_service_A_ns1_svc1".toList, []⟩],
         [("l1".toList, ⟨"p1".toList, "pool_0_kube_service_A_ns1_svc1".toList, "m1".toList⟩)],
         [⟨"m1".toList, "monitor_0_kube_service_A_ns1_svc1".toList⟩]⟩
        "kube_service_B_ns1_svc1".toList "B".toList).2.trace =
        Ev.listListeners "lb1".toList :: (cs.join ++
          [Ev.updateLoadBalancer "lb1".toList "kube_service_B_ns1_svc1".toList []]) ∧
      (∀ c ∈ cs, lChunk "lb1".toList c) ∧
      (∀ c ∈ cs, ∀ i nmx tg, Ev.updateLoadBalancer i nmx tg ∉ c) :=
  c2_rename_trace_order envOK
    ⟨⟨"lb1".toList, "kube_service_A_ns1_svc1".toList, []⟩,
     [⟨"l1".toList, "listener_0_kube_service_A_ns1_svc1".toList, []⟩],
     [("l1".toList, ⟨"p1".toList, "pool_0_kube_service_A_ns1_svc1".toList, "m1".toList⟩)],
     [⟨"m1".toList, "monitor_0_kube_service_A_ns1_svc1".toList⟩]⟩
    "kube_service_B_ns1_svc1".toList "B".toList
    ⟨"lb1".toList, "kube_service_B_ns1_svc1".toList, ([] : List Str)⟩
    (renameLoadBalancer envOK
      ⟨⟨"lb1".toList, "kube_service_A_ns1_svc1".toList, []⟩,
       [⟨"l1".toList, "listener_0_kube_service_A_ns1_svc1".toList, []⟩],
       [("l1".toList, ⟨"p1".toList, "pool_0_kube_service_A_ns1_svc1".toList, "m1".toList⟩)],
       [⟨"m1".toList, "monitor_0_kube_service_A_ns1_svc1".toList⟩]⟩
      "kube_service_B_ns1_svc1".toList "B".toList).2
    (by decide)

/-- C8: whenever an accessor call fails during the cascade (the
environment injects an error at call index `n`, and the run reaches
that call), the cascade stops immediately — the failing call is the
last entry of the trace, so no further accessor call is issued and no
compensating update is attempted — and the error value returned to the
caller is exactly the failing call's error. -/
theorem c8_rename_abort_on_fault (env : Env) (tree : RTree) (lbName cn : Str)
    (n : Nat) (e : Err) (henv : env.fault n = some e)
    (hreach : (renameLoadBalancer env tree lbName cn).2.trace.length > n) :
    (renameLoadBalancer env tree lbName cn).1 = .error e ∧
      (renameLoadBalancer env tree lbName cn).2.trace.length = n + 1 :=
  renameLoadBalancer_stops henv hreach

/-- The environment that fails the second accessor call (index 1). -/
def envFail1 : Env := ⟨fun k => if k = 1 then some (.injected 7) else none⟩

/-- Witness for C8: fault injected at the pool fetch (call index 1). -/
theorem c8_witness :
    (renameLoadBalancer envFail1
      ⟨⟨"lb1".toList, "kube_service_A_ns1_svc1".toList, []⟩,
       [⟨"l1".toList, "listener_0_kube_service_A_ns1_svc1".toList, []⟩],
       [("l1".toList, ⟨"p1".toList, "pool_0_kube_service_A_ns1_svc1".toList, []⟩)],
       []⟩
      "kube_service_B_ns1_svc1".toList "B".toList).1 = .error (.injected 7) ∧
    (renameLoadBalancer envFail1
      ⟨⟨"lb1".toList, "kube_service_A_ns1_svc1".toList, []⟩,
       [⟨"l1".toList, "listener_0_kube_service_A_ns1_svc1".toList, []⟩],
       [("l1".toList, ⟨"p1".toList, "pool_0_kube_service_A_ns1_svc1".toList, []⟩)],
       []⟩
      "kube_service_B_ns1_svc1".toList "B".toList).2.trace.length = 1 + 1 :=
  c8_rename_abort_on_fault envFail1
    ⟨⟨"lb1".toList, "kube_service_A_ns1_svc1".toList, []⟩,
     [⟨"l1".toList, "listener_0_kube_service_A_ns1_svc1".toList, []⟩],
     [("l1".toList, ⟨"p1".toList, "pool_0_kube_service_A_ns1_svc1".toList, []⟩)],
     []⟩
    "kube_service_B_ns1_svc1".toList "B".toList 1 (.injected 7) (by decide) (by decide)

/-- C6: a tag that does not decode is left byte-for-byte identical; a
tag decoding to the target identity is unchanged; a tag decoding to a
different nonempty identity has exactly its first occurrence of that
identity substring replaced by the target, the rest unchanged. -/
theorem c6_rewriteTag_contract (cn tag : Str) :
    ((decomposeLBName .plain tag).1 = [] → rewriteTag cn tag = tag) ∧
    ((decomposeLBName .plain tag).1 = cn → rewriteTag cn tag = tag) ∧
    ((decomposeLBName .plain tag).1 ≠ [] → (decomposeLBName .plain tag).1 ≠ cn →
      ∃ pre post, tag = pre ++ (decomposeLBName .plain tag).1 ++ post ∧
        rewriteTag cn tag = pre ++ cn ++ post ∧
        ∀ pre2 post2, tag = pre2 ++ (decomposeLBName .plain tag).1 ++ post2 →
          pre.length ≤ pre2.length) := by
  refine ⟨?_, ?_, ?_⟩
  · intro h
    unfold rewriteTag
    rw [if_neg]
    intro hcontra
    exact hcontra.1 h
  · intro h
    unfold rewriteTag
    rw [if_neg]
    intro hcontra
    exact hcontra.2 h
  · intro hne hnecn
    have hocc : ∃ j, ((decomposeLBName .plain tag).1).isPrefixOf (tag.drop j) = true := by
      cases hs : searchName .plain tag with
      | none =>
        exfalso
        exact hne (by rw [decomposeLBName_of_search_none hs])
      | some t =>
        obtain ⟨a, b, c⟩ := t
        have hdec : decomposeLBName .plain tag = (a, b, c) := decomposeLBName_of_search_some hs
        obtain ⟨pre, P, post, hP, hraw, _, _, _, _, _, _, _⟩ := searchName_eq_some hs
        refine ⟨(pre ++ P).length, ?_⟩
        have hshape : tag = (pre ++ P) ++ (a ++ sep :: (b ++ sep :: (c ++ post))) := by
          rw [hraw]
        have hdropj : tag.drop (pre ++ P).length = a ++ sep :: (b ++ sep :: (c ++ post)) := by
          conv_lhs => rw [hshape]
          rw [List.drop_left]
        rw [hdec]
        dsimp only
        rw [hdropj]
        exact List.isPrefixOf_iff_prefix.2 ⟨sep :: (b ++ sep :: (c ++ post)), rfl⟩
    obtain ⟨j, hj⟩ := hocc
    have hfs : ∃ i, findSub tag ((decomposeLBName .plain tag).1) = some i := by
      cases hf : findSub tag ((decomposeLBName .plain tag).1) with
      | none =>
        exfalso
        have := findSub_none hf j
        rw [hj] at this
        cases this
      | some i => exact ⟨i, rfl⟩
    obtain ⟨i, hf⟩ := hfs
    obtain ⟨hsplit, hrepl⟩ := replaceClusterName_split hf
    have hlt2 : i < tag.length := by
      obtain ⟨t, ht⟩ := List.isPrefixOf_iff_prefix.1 (findSub_some hf).1
      by_contra hge
      have hdnil : tag.drop i = [] := List.drop_eq_nil_of_le (by omega)
      rw [hdnil] at ht
      exact hne (List.append_eq_nil.1 ht).1
    have hilen : (tag.take i).length = i := by
      rw [List.length_take, Nat.min_eq_left (Nat.le_of_lt hlt2)]
    refine ⟨tag.take i, tag.drop (i + ((decomposeLBName .plain tag).1).length), hsplit, ?_, ?_⟩
    · rw [← hrepl]
      unfold rewriteTag
      rw [if_pos ⟨hne, hnecn⟩]
    · intro pre2 post2 h2
      rw [hilen]
      by_contra hlt
      have hdrop2 : tag.drop pre2.length = (decomposeLBName .plain tag).1 ++ post2 := by
        obtain ⟨o2, ho2⟩ : ∃ o2, o2 = (decomposeLBName .plain tag).1 := ⟨_, rfl⟩
        rw [← ho2] at h2 ⊢
        have hshape2 : tag = pre2 ++ (o2 ++ post2) := by
          rw [h2, List.append_assoc]
        conv_lhs => rw [hshape2]
        rw [List.drop_left]
      have hj2 : ((decomposeLBName .plain tag).1).isPrefixOf (tag.drop pre2.length) = true := by
        rw [hdrop2]
        exact List.isPrefixOf_iff_prefix.2 ⟨post2, rfl⟩
      have hfalse := (findSub_some hf).2 pre2.length (by omega)
      rw [hj2] at hfalse
      cases hfalse

/-- Witness for C6: a tag that already carries the target cluster
identity is returned unchanged, and an undecodable tag is untouched. -/
theorem c6_witness :
    rewriteTag "A".toList "kube_service_A_ns_n".toList
      = "kube_service_A_ns_n".toList ∧
    rewriteTag "A".toList "team-payments".toList = "team-payments".toList :=
  ⟨(c6_rewriteTag_contract "A".toList "kube_service_A_ns_n".toList).2.1 (by decide),
   (c6_rewriteTag_contract "A".toList "team-payments".toList).1 (by decide)⟩

/-- C9: when a managed listener with a stale identity is processed, the
persisted listener name is computed by `replaceClusterName` applied
with the POOL's decomposed identity (the `oldClusterName` variable
reassigned from the pool's name), not the listener's own identity; in
particular, if the pool's identity already equals the target the
update persists the listener's old name, stale identity included. -/
theorem c9_listener_rename_uses_pool_identity (env : Env) (cn lbID : Str)
    (l : Listener) (st st' : St) (r : Unit)
    (hpre : listenerPfx.isPrefixOf l.name = true)
    (hold : (decomposeLBName (.numbered listenerPfx) l.name).1 ≠ cn)
    (h : processListener env cn lbID l st = (.ok r, st')) :
    ∃ (p : Pool) (st2 : St), lookupPool st.tree l.id = .ok p ∧
      st'.trace = st2.trace ++ [.updateListener lbID l.id
        (replaceClusterName ((decomposeLBName (.numbered poolPfx) p.name).1) cn l.name)
        (l.tags.map (rewriteTag cn))] ∧
      ((decomposeLBName (.numbered poolPfx) p.name).1 = cn →
        replaceClusterName ((decomposeLBName (.numbered poolPfx) p.name).1) cn l.name
          = l.name) := by
  rcases processListener_ok_elim h with ⟨hnp, _⟩ | ⟨_, holdeq, _⟩ |
    ⟨_, _, p, st2, hres, _, hst'⟩
  · exact absurd hpre hnp
  · exact absurd holdeq hold
  · refine ⟨p, st2, hres, ?_, fun hcq => ?_⟩
    · rw [hst']
    rw [hcq]
    exact replaceClusterName_self cn l.name

/-- Witness for C9: a listener with stale identity `A` whose pool
already carries the target identity `B`; the persisted listener name is
unchanged. -/
theorem c9_witness :
    ∃ (p : Pool) (st2 : St),
      lookupPool
        (⟨⟨"lb1".toList, "kube_service_A_ns_n".toList, []⟩,
          [⟨"l1".toList, "listener_0_kube_service_A_ns_n".toList, []⟩],
          [("l1".toList, ⟨"p1".toList, "pool_0_kube_service_B_ns_n".toList, []⟩)],
          []⟩ : RTree) "l1".toList = .ok p ∧
      (processListener envOK "B".toList "lb1".toList
        ⟨"l1".toList, "listener_0_kube_service_A_ns_n".toList, []⟩
        ⟨⟨⟨"lb1".toList, "kube_service_A_ns_n".toList, []⟩,
          [⟨"l1".toList, "listener_0_kube_service_A_ns_n".toList, []⟩],
          [("l1".toList, ⟨"p1".toList, "pool_0_kube_service_B_ns_n".toList, []⟩)],
          []⟩, []⟩).2.trace
        = st2.trace ++ [.updateListener "lb1".toList "l1".toList
            (replaceClusterName ((decomposeLBName (.numbered poolPfx) p.name).1)
              "B".toList "listener_0_kube_service_A_ns_n".toList)
            (([] : List Str).map (rewriteTag "B".toList))] ∧
      ((decomposeLBName (.numbered poolPfx) p.name).1 = "B".toList →
        replaceClusterName ((decomposeLBName (.numbered poolPfx) p.name).1) "B".toList
          "listener_0_kube_service_A_ns_n".toList
          = "listener_0_kube_service_A_ns_n".toList) :=
  c9_listener_rename_uses_pool_identity envOK "B".toList "lb1".toList
    ⟨"l1".toList, "listener_0_kube_service_A_ns_n".toList, []⟩
    ⟨⟨⟨"lb1".toList, "kube_service_A_ns_n".toList, []⟩,
      [⟨"l1".toList, "listener_0_kube_service_A_ns_n".toList, []⟩],
      [("l1".toList, ⟨"p1".toList, "pool_0_kube_service_B_ns_n".toList, []⟩)],
      []⟩, []⟩
    (processListener envOK "B".toList "lb1".toList
      ⟨"l1".toList, "listener_0_kube_service_A_ns_n".toList, []⟩
      ⟨⟨⟨"lb1".toList, "kube_service_A_ns_n".toList, []⟩,
        [⟨"l1".toList, "listener_0_kube_service_A_ns_n".toList, []⟩],
        [("l1".toList, ⟨"p1".toList, "pool_0_kube_service_B_ns_n".toList, []⟩)],
        []⟩, []⟩).2
    () (by decide) (by decide) (by decide)

/-- C1 (amended): the monitor-level check is NOT independent of the
pool-level check — it is nested inside the pool-mismatch branch.  When
the pool's decomposed identity already equals the target, a successful
run of the loop body fetches the pool and updates the listener but
never touches the monitors: the monitor set is unchanged and the trace
gains no monitor call, even if the pool has a monitor with a stale
identity. -/
theorem c1_monitor_check_nested (env : Env) (cn lbID : Str) (l : Listener)
    (st st' : St) (r : Unit) (p : Pool)
    (hpre : listenerPfx.isPrefixOf l.name = true)
    (hold1 : (decomposeLBName (.numbered listenerPfx) l.name).1 ≠ cn)
    (hres : lookupPool st.tree l.id = .ok p)
    (hp : (decomposeLBName (.numbered poolPfx) p.name).1 = cn)
    (h : processListener env cn lbID l st = (.ok r, st')) :
    st'.tree.monitors = st.tree.monitors ∧ st'.tree.pools = st.tree.pools ∧
    st'.trace = st.trace ++ [.getPool lbID l.id,
      .updateListener lbID l.id l.name (l.tags.map (rewriteTag cn))] := by
  rcases processListener_ok_elim h with ⟨hnp, _⟩ | ⟨_, holdeq, _⟩ |
    ⟨_, _, p', st2, hres', hor, hst'⟩
  · exact absurd hpre hnp
  · exact absurd holdeq hold1
  · rw [hres] at hres'
    injection hres' with hpp
    subst hpp
    rcases hor with ⟨hpeq, hst2⟩ | ⟨hpne, _⟩
    · refine ⟨?_, ?_, ?_⟩
      · rw [hst', hst2]
        rfl
      · rw [hst', hst2]
        rfl
      · rw [hst', hst2]
        dsimp only
        rw [hp, replaceClusterName_self]
        simp
    · exact absurd hp hpne

/-- Witness for C1's amended theorem: listener stale `A`, pool already
at target `B`, monitor stale `A` — the run succeeds and the monitors
are untouched. -/
theorem c1_witness :
    ((processListener envOK "B".toList "lb1".toList
        ⟨"l1".toList, "listener_0_kube_service_A_ns_n".toList, []⟩
        ⟨⟨⟨"lb1".toList, "kube_service_A_ns_n".toList, []⟩,
          [⟨"l1".toList, "listener_0_kube_service_A_ns_n".toList, []⟩],
          [("l1".toList, ⟨"p1".toList, "pool_0_kube_service_B_ns_n".toList, "m1".toList⟩)],
          [⟨"m1".toList, "monitor_0_kube_service_A_ns_n".toList⟩]⟩, []⟩).2.tree.monitors
      = [⟨"m1".toList, "monitor_0_kube_service_A_ns_n".toList⟩]) ∧
    ((processListener envOK "B".toList "lb1".toList
        ⟨"l1".toList, "listener_0_kube_service_A_ns_n".toList, []⟩
        ⟨⟨⟨"lb1".toList, "kube_service_A_ns_n".toList, []⟩,
          [⟨"l1".toList, "listener_0_kube_service_A_ns_n".toList, []⟩],
          [("l1".toList, ⟨"p1".toList, "pool_0_kube_service_B_ns_n".toList, "m1".toList⟩)],
          [⟨"m1".toList, "monitor_0_kube_service_A_ns_n".toList⟩]⟩, []⟩).2.trace
      = [] ++ [.getPool "lb1".toList "l1".toList,
          .updateListener "lb1".toList "l1".toList
            "listener_0_kube_service_A_ns_n".toList
            (([] : List Str).map (rewriteTag "B".toList))]) :=
  ⟨(c1_monitor_check_nested envOK "B".toList "lb1".toList
      ⟨"l1".toList, "listener_0_kube_service_A_ns_n".toList, []⟩
      ⟨⟨⟨"lb1".toList, "kube_service_A_ns_n".toList, []⟩,
        [⟨"l1".toList, "listener_0_kube_service_A_ns_n".toList, []⟩],
        [("l1".toList, ⟨"p1".toList, "pool_0_kube_service_B_ns_n".toList, "m1".toList⟩)],
        [⟨"m1".toList, "monitor_0_kube_service_A_ns_n".toList⟩]⟩, []⟩
      (processListener envOK "B".toList "lb1".toList
        ⟨"l1".toList, "listener_0_kube_service_A_ns_n".toList, []⟩
        ⟨⟨⟨"lb1".toList, "kube_service_A_ns_n".toList, []⟩,
          [⟨"l1".toList, "listener_0_kube_service_A_ns_n".toList, []⟩],
          [("l1".toList, ⟨"p1".toList, "pool_0_kube_service_B_ns_n".toList, "m1".toList⟩)],
          [⟨"m1".toList, "monitor_0_kube_service_A_ns_n".toList⟩]⟩, []⟩).2
      () ⟨"p1".toList, "pool_0_kube_service_B_ns_n".toList, "m1".toList⟩
      (by decide) (by decide) (by decide) (by decide) (by decide)).1,
   (c1_monitor_check_nested envOK "B".toList "lb1".toList
      ⟨"l1".toList, "listener_0_kube_service_A_ns_n".toList, []⟩
      ⟨⟨⟨"lb1".toList, "kube_service_A_ns_n".toList, []⟩,
        [⟨"l1".toList, "listener_0_kube_service_A_ns_n".toList, []⟩],
        [("l1".toList, ⟨"p1".toList, "pool_0_kube_service_B_ns_n".toList, "m1".toList⟩)],
        [⟨"m1".toList, "monitor_0_kube_service_A_ns_n".toList⟩]⟩, []⟩
      (processListener envOK "B".toList "lb1".toList
        ⟨"l1".toList, "listener_0_kube_service_A_ns_n".toList, []⟩
        ⟨⟨⟨"lb1".toList, "kube_service_A_ns_n".toList, []⟩,
          [⟨"l1".toList, "listener_0_kube_service_A_ns_n".toList, []⟩],
          [("l1".toList, ⟨"p1".toList, "pool_0_kube_service_B_ns_n".toList, "m1".toList⟩)],
          [⟨"m1".toList, "monitor_0_kube_service_A_ns_n".toList⟩]⟩, []⟩).2
      () ⟨"p1".toList, "pool_0_kube_service_B_ns_n".toList, "m1".toList⟩
      (by decide) (by decide) (by decide) (by decide) (by decide)).2.2⟩

/-- Counterexample for C1 as stated: the pool's monitor has a stale
identity (differs from the target `B`) while the pool itself is
current; the loop body succeeds without examining or updating the
monitor — the monitor set is byte-for-byte unchanged and the trace
holds no monitor call at all. -/
theorem c1_counterexample :
    ((decomposeLBName (.numbered monitorPfx)
        "monitor_0_kube_service_A_ns_n".toList).1 ≠ "B".toList) ∧
    ((processListener envOK "B".toList "lb1".toList
        ⟨"l1".toList, "listener_0_kube_service_A_ns_n".toList, []⟩
        ⟨⟨⟨"lb1".toList, "kube_service_A_ns_n".toList, []⟩,
          [⟨"l1".toList, "listener_0_kube_service_A_ns_n".toList, []⟩],
          [("l1".toList, ⟨"p1".toList, "pool_0_kube_service_B_ns_n".toList, "m1".toList⟩)],
          [⟨"m1".toList, "monitor_0_kube_service_A_ns_n".toList⟩]⟩, []⟩).1 = .ok ()) ∧
    ((processListener envOK "B".toList "lb1".toList
        ⟨"l1".toList, "listener_0_kube_service_A_ns_n".toList, []⟩
        ⟨⟨⟨"lb1".toList, "kube_service_A_ns_n".toList, []⟩,
          [⟨"l1".toList, "listener_0_kube_service_A_ns_n".toList, []⟩],
          [("l1".toList, ⟨"p1".toList, "pool_0_kube_service_B_ns_n".toList, "m1".toList⟩)],
          [⟨"m1".toList, "monitor_0_kube_service_A_ns_n".toList⟩]⟩, []⟩).2.tree.monitors
      = [⟨"m1".toList, "monitor_0_kube_service_A_ns_n".toList⟩]) ∧
    ((processListener envOK "B".toList "lb1".toList
        ⟨"l1".toList, "listener_0_kube_service_A_ns_n".toList, []⟩
        ⟨⟨⟨"lb1".toList, "kube_service_A_ns_n".toList, []⟩,
          [⟨"l1".toList, "listener_0_kube_service_A_ns_n".toList, []⟩],
          [("l1".toList, ⟨"p1".toList, "pool_0_kube_service_B_ns_n".toList, "m1".toList⟩)],
          [⟨"m1".toList, "monitor_0_kube_service_A_ns_n".toList⟩]⟩, []⟩).2.trace.all
      (fun e => match e with
        | .updateMonitor _ _ _ => false
        | .getMonitor _ => false
        | _ => true) = true) := by
  decide

/-- The structural skeleton of a tree: listener IDs, pool entries as
(listener key, pool ID, monitor ID), and monitor IDs — everything the
cascade's lookups key on, none of it touched by the name setters. -/
def skel (t : RTree) : List Str × List (Str × Str × Str) × List Str :=
  (t.listeners.map Listener.id,
   t.pools.map (fun pr => (pr.1, pr.2.id, pr.2.monitorID)),
   t.monitors.map Monitor.id)

/-- Does an accessor event update the listener, pool or monitor with
the given IDs? -/
def touches (lfid pfid mfid : Str) : Ev → Bool
  | .updateListener _ lid _ _ => lid == lfid
  | .updatePool _ pid _ => pid == pfid
  | .updateMonitor mid _ _ => mid == mfid
  | _ => false

theorem skel_setMonitorName (t : RTree) (mid nm : Str) :
    skel (setMonitorName t mid nm) = skel t := by
  unfold skel setMonitorName
  simp only [Prod.mk.injEq, List.map_map, true_and, and_true]
  refine List.map_congr_left ?_
  intro m _
  dsimp only [Function.comp]
  split <;> rfl

theorem skel_setPoolName (t : RTree) (pid nm : Str) :
    skel (setPoolName t pid nm) = skel t := by
  unfold skel setPoolName
  simp only [Prod.mk.injEq, List.map_map, true_and, and_true]
  refine List.map_congr_left ?_
  intro pr _
  dsimp only [Function.comp]
  split <;> rfl

theorem skel_setListenerState (t : RTree) (lid nm : Str) (tags : List Str) :
    skel (setListenerState t lid nm tags) = skel t := by
  unfold skel setListenerState
  simp only [Prod.mk.injEq, List.map_map, true_and, and_true]
  refine List.map_congr_left ?_
  intro l _
  dsimp only [Function.comp]
  split <;> rfl

theorem skel_setLB (t : RTree) (nm : Str) (tags : List Str) :
    skel (setLB t nm tags) = skel t := rfl

/-- A successful pool lookup's entry is in the tree. -/
theorem lookupPool_ok_mem {t : RTree} {lid : Str} {p : Pool}
    (h : lookupPool t lid = .ok p) : (lid, p) ∈ t.pools := by
  unfold lookupPool at h
  rcases hf : t.pools.find? (fun pr => pr.1 == lid) with _ | pr
  · rw [hf] at h
    cases h
  · rw [hf] at h
    injection h with h1
    have hmem := List.mem_of_find?_eq_some hf
    have hpred := List.find?_some hf
    have hkey : pr.1 = lid := by
      simpa using hpred
    rw [← h1, ← hkey]
    exact hmem

/-- A successful monitor lookup's record is in the tree. -/
theorem lookupMonitor_ok_mem {t : RTree} {mid : Str} {m : Monitor}
    (h : lookupMonitor t mid = .ok m) : m ∈ t.monitors := by
  unfold lookupMonitor at h
  rcases hf : t.monitors.find? (fun x => x.id == mid) with _ | m'
  · rw [hf] at h
    cases h
  · rw [hf] at h
    injection h with h1
    rw [← h1]
    exact List.mem_of_find?_eq_some hf

/-- An element a self-mapping function fixes stays in the mapped list. -/
theorem mem_map_fix {α : Type} {l : List α} {f : α → α} {x : α}
    (hx : x ∈ l) (hfx : f x = x) : x ∈ l.map f :=
  hfx ▸ List.mem_map_of_mem f hx

/-- Pool-side hypotheses transfer across skeleton equality. -/
theorem pools_guard_transfer {t t' : RTree} (hs : skel t' = skel t)
    {lfid pfid mfid : Str}
    (hp : ∀ pr ∈ t.pools, pr.1 ≠ lfid → pr.2.id ≠ pfid ∧ pr.2.monitorID ≠ mfid) :
    ∀ pr ∈ t'.pools, pr.1 ≠ lfid → pr.2.id ≠ pfid ∧ pr.2.monitorID ≠ mfid := by
  intro pr hpr hne
  have h1 : (pr.1, pr.2.id, pr.2.monitorID)
      ∈ t'.pools.map (fun q => (q.1, q.2.id, q.2.monitorID)) :=
    List.mem_map_of_mem _ hpr
  have h2 : t'.pools.map (fun q => (q.1, q.2.id, q.2.monitorID))
      = t.pools.map (fun q => (q.1, q.2.id, q.2.monitorID)) :=
    congrArg (fun x => x.2.1) hs
  rw [h2] at h1
  obtain ⟨q, hq, heq⟩ := List.mem_map.1 h1
  obtain ⟨e1, e2, e3⟩ : q.1 = pr.1 ∧ q.2.id = pr.2.id ∧ q.2.monitorID = pr.2.monitorID := by
    injection heq with a b
    injection b with b c
    exact ⟨a, b, c⟩
  have := hp q hq (by rw [e1]; exact hne)
  exact ⟨e2 ▸ this.1, e3 ▸ this.2⟩

/-- Frame for the monitor step: with a foreign monitor ID different
from the pool's, a successful run leaves listeners and pools untouched,
preserves every monitor carrying the foreign ID, keeps the skeleton,
and adds no trace event touching the foreign IDs. -/
theorem handleMonitor_frame {env : Env} {cn lbID : Str} {p : Pool} {st : St}
    {r : Unit} {st' : St} (lfid pfid mfid : Str)
    (h : handleMonitor env cn lbID p st = (.ok r, st'))
    (hmid : p.monitorID ≠ mfid) :
    skel st'.tree = skel st.tree ∧
    st'.tree.listeners = st.tree.listeners ∧
    st'.tree.pools = st.tree.pools ∧
    (∀ m ∈ st.tree.monitors, m.id = mfid → m ∈ st'.tree.monitors) ∧
    (st.trace.all (fun e => !(touches lfid pfid mfid e)) = true →
      st'.trace.all (fun e => !(touches lfid pfid mfid e)) = true) := by
  rcases handleMonitor_ok_elim h with ⟨_, hst⟩ | ⟨hne, m, hres, hcase⟩
  · subst hst
    exact ⟨rfl, rfl, rfl, fun x hx _ => hx, fun ht => ht⟩
  · have hmidm : m.id = p.monitorID := lookupMonitor_ok_id hres
    rcases hcase with ⟨_, hst⟩ | ⟨_, hst⟩
    · subst hst
      refine ⟨rfl, rfl, rfl, fun x hx _ => hx, fun ht => ?_⟩
      simp only [List.all_append, ht, Bool.true_and]
      rfl
    · subst hst
      refine ⟨?_, rfl, rfl, ?_, ?_⟩
      · exact skel_setMonitorName st.tree m.id _
      · intro x hx hxid
        show x ∈ (setMonitorName st.tree m.id _).monitors
        unfold setMonitorName
        refine mem_map_fix hx ?_
        rw [if_neg]
        rw [hxid, hmidm]
        intro hq
        exact hmid hq.symm
      · intro ht
        have hb : (m.id == mfid) = false := by
          rw [hmidm]
          simp [hmid]
        have hg : ∀ x, (!touches lfid pfid mfid (Ev.getMonitor x)) = true := fun _ => rfl
        have hu : ∀ nm lb, (!touches lfid pfid mfid (Ev.updateMonitor m.id nm lb)) = true := by
          intro nm lb
          show (!(m.id == mfid)) = true
          rw [hb]
          rfl
        simp only [List.all_append, ht, Bool.true_and, List.all_cons, List.all_nil,
          hg, hu, Bool.and_true, Bool.and_self]

/-- Frame for the pool-mismatch branch: with foreign pool and monitor
IDs different from this pool's, a successful run keeps the skeleton,
listeners, every pool entry with the foreign pool ID, every monitor
with the foreign monitor ID, and adds no trace event touching the
foreign IDs. -/
theorem handlePool_frame {env : Env} {cn lbID : Str} {p : Pool} {old2 : Str}
    {st : St} {r : Unit} {st' : St} (lfid pfid mfid : Str)
    (h : handlePool env cn lbID p old2 st = (.ok r, st'))
    (hpid : p.id ≠ pfid) (hmid : p.monitorID ≠ mfid) :
    skel st'.tree = skel st.tree ∧
    st'.tree.listeners = st.tree.listeners ∧
    (∀ pr ∈ st.tree.pools, pr.2.id = pfid → pr ∈ st'.tree.pools) ∧
    (∀ m ∈ st.tree.monitors, m.id = mfid → m ∈ st'.tree.monitors) ∧
    (st.trace.all (fun e => !(touches lfid pfid mfid e)) = true →
      st'.trace.all (fun e => !(touches lfid pfid mfid e)) = true) := by
  obtain ⟨st1, hhm, hst'⟩ := handlePool_ok_elim h
  obtain ⟨hsk, hls, hps, hms, htr⟩ := handleMonitor_frame lfid pfid mfid hhm hmid
  subst hst'
  refine ⟨?_, ?_, ?_, ?_, ?_⟩
  · exact (skel_setPoolName st1.tree p.id _).trans hsk
  · exact hls
  · intro pr hpr hprid
    show pr ∈ (setPoolName st1.tree p.id _).pools
    unfold setPoolName
    refine mem_map_fix ?_ ?_
    · rw [hps]
      exact hpr
    · rw [if_neg]
      rw [hprid]
      intro hq
      exact hpid hq.symm
  · exact hms
  · intro ht
    have hb : (p.id == pfid) = false := by simp [hpid]
    simp only [List.all_append, List.all_cons, List.all_nil, touches, hb,
      Bool.not_false, Bool.and_true, Bool.true_and]
    exact htr ht

/-- Frame for one loop iteration: a listener that is either foreign or
has a different ID than `lfid`, together with the pool-side guard on
the current tree, leaves the `lfid` listener record, every `pfid` pool
entry and every `mfid` monitor in place, keeps the skeleton, and adds
no trace event touching those IDs. -/
theorem processListener_frame {env : Env} {cn lbID : Str} {l : Listener}
    {st : St} {r : Unit} {st' : St} (lfid pfid mfid : Str)
    (h : processListener env cn lbID l st = (.ok r, st'))
    (hl : listenerPfx.isPrefixOf l.name = true → l.id ≠ lfid)
    (hpools : ∀ pr ∈ st.tree.pools, pr.1 ≠ lfid →
      pr.2.id ≠ pfid ∧ pr.2.monitorID ≠ mfid) :
    skel st'.tree = skel st.tree ∧
    (∀ x ∈ st.tree.listeners, x.id = lfid → x ∈ st'.tree.listeners) ∧
    (∀ pr ∈ st.tree.pools, pr.2.id = pfid → pr ∈ st'.tree.pools) ∧
    (∀ m ∈ st.tree.monitors, m.id = mfid → m ∈ st'.tree.monitors) ∧
    (st.trace.all (fun e => !(touches lfid pfid mfid e)) = true →
      st'.trace.all (fun e => !(touches lfid pfid mfid e)) = true) := by
  rcases processListener_ok_elim h with ⟨_, hst⟩ | ⟨_, _, hst⟩ |
    ⟨hpre, _, p, st2, hres, hor, hst'⟩
  · subst hst
    exact ⟨rfl, fun x hx _ => hx, fun pr hpr _ => hpr, fun x hx _ => hx, fun ht => ht⟩
  · subst hst
    exact ⟨rfl, fun x hx _ => hx, fun pr hpr _ => hpr, fun x hx _ => hx, fun ht => ht⟩
  · have hlid : l.id ≠ lfid := hl hpre
    have hmem : (l.id, p) ∈ st.tree.pools := lookupPool_ok_mem hres
    obtain ⟨hpid, hmid⟩ := hpools (l.id, p) hmem hlid
    have hg : ∀ a b, (!touches lfid pfid mfid (Ev.getPool a b)) = true := fun _ _ => rfl
    have hls : ∀ nm tg lb, (!touches lfid pfid mfid (Ev.updateListener lb l.id nm tg))
        = true := by
      intro nm tg lb
      show (!(l.id == lfid)) = true
      simp [hlid]
    rcases hor with ⟨_, hst2⟩ | ⟨_, hhp⟩
    · subst hst2
      subst hst'
      refine ⟨?_, ?_, fun pr hpr _ => hpr, fun x hx _ => hx, ?_⟩
      · exact skel_setListenerState st.tree l.id _ _
      · intro x hx hxid
        show x ∈ (setListenerState st.tree l.id _ _).listeners
        unfold setListenerState
        refine mem_map_fix hx ?_
        rw [if_neg]
        rw [hxid]
        intro hq
        exact hlid hq.symm
      · intro ht
        simp only [List.all_append, ht, Bool.true_and, List.all_cons, List.all_nil,
          hg, hls, Bool.and_true, Bool.and_self]
    · obtain ⟨hsk, hlseq, hps, hms, htr⟩ := handlePool_frame lfid pfid mfid hhp hpid hmid
      subst hst'
      refine ⟨?_, ?_, ?_, ?_, ?_⟩
      · exact (skel_setListenerState st2.tree l.id _ _).trans hsk
      · intro x hx hxid
        show x ∈ (setListenerState st2.tree l.id _ _).listeners
        unfold setListenerState
        refine mem_map_fix ?_ ?_
        · rw [hlseq]
          exact hx
        · rw [if_neg]
          rw [hxid]
          intro hq
          exact hlid hq.symm
      · intro pr hpr hprid
        have := hps pr hpr hprid
        exact this
      · intro x hx hxid
        have := hms x hx hxid
        exact this
      · intro ht
        have hin : ((⟨st.tree, st.trace ++ [Ev.getPool lbID l.id]⟩ : St).trace.all
            (fun e => !(touches lfid pfid mfid e))) = true := by
          simp only [List.all_append, ht, Bool.true_and, List.all_cons, List.all_nil,
            hg, Bool.and_true, Bool.and_self]
        have hmidt := htr hin
        simp only [List.all_append, hmidt, Bool.true_and, List.all_cons, List.all_nil,
          hls, Bool.and_true, Bool.and_self]

/-- Frame for the whole listener loop, by induction: the per-iteration
frame composes, the pool-side guard transferring across the preserved
skeleton. -/
theorem processListeners_frame {env : Env} {cn lbID : Str} {ls : List Listener}
    {st : St} {r : Unit} {st' : St} (lfid pfid mfid : Str)
    (h : processListeners env cn lbID ls st = (.ok r, st'))
    (hl : ∀ l' ∈ ls, listenerPfx.isPrefixOf l'.name = true → l'.id ≠ lfid)
    (hpools : ∀ pr ∈ st.tree.pools, pr.1 ≠ lfid →
      pr.2.id ≠ pfid ∧ pr.2.monitorID ≠ mfid) :
    skel st'.tree = skel st.tree ∧
    (∀ x ∈ st.tree.listeners, x.id = lfid → x ∈ st'.tree.listeners) ∧
    (∀ pr ∈ st.tree.pools, pr.2.id = pfid → pr ∈ st'.tree.pools) ∧
    (∀ m ∈ st.tree.monitors, m.id = mfid → m ∈ st'.tree.monitors) ∧
    (st.trace.all (fun e => !(touches lfid pfid mfid e)) = true →
      st'.trace.all (fun e => !(touches lfid pfid mfid e)) = true) := by
  induction ls generalizing st with
  | nil =>
    unfold processListeners at h
    injection h with h1 h2
    subst h2
    exact ⟨rfl, fun x hx _ => hx, fun pr hpr _ => hpr, fun x hx _ => hx, fun ht => ht⟩
  | cons l ls ih =>
    unfold processListeners at h
    rcases hpl : processListener env cn lbID l st with ⟨r1, st1⟩
    rw [hpl] at h
    cases r1 with
    | error e1 => exact absurd (congrArg Prod.fst h) (by simp)
    | ok u =>
      dsimp only at h
      obtain ⟨hsk1, hB1, hC1, hD1, hE1⟩ := processListener_frame lfid pfid mfid hpl
        (hl l (List.mem_cons_self l ls)) hpools
      obtain ⟨hsk2, hB2, hC2, hD2, hE2⟩ := ih h
        (fun l' hl' => hl l' (List.mem_cons_of_mem l hl'))
        (pools_guard_transfer hsk1 hpools)
      refine ⟨hsk2.trans hsk1, ?_, ?_, ?_, fun ht => hE2 (hE1 ht)⟩
      · intro x hx hxid
        exact hB2 x (hB1 x hx hxid) hxid
      · intro pr hpr hprid
        exact hC2 pr (hC1 pr hpr hprid) hprid
      · intro m hm hmidp
        exact hD2 m (hD1 m hm hmidp) hmidp

/-- C5: a listener whose name lacks the listener prefix is skipped
wholesale — on a successful cascade its record, its pool entry and its
pool's monitor survive in the final tree unchanged, and the trace holds
no update call carrying their IDs, even though the load balancer itself
is renamed.  Requires the listener's ID to be unique and its pool's
pool/monitor IDs not to be shared by other listeners' pools. -/
theorem c5_foreign_listener_isolation (env : Env) (tree : RTree) (lbName cn : Str)
    (lf : Listener) (pf : Pool) (r : LoadBalancer) (st' : St)
    (h : renameLoadBalancer env tree lbName cn = (.ok r, st'))
    (hpre : ¬ listenerPfx.isPrefixOf lf.name = true)
    (hmem : lf ∈ tree.listeners)
    (huniq : ∀ l' ∈ tree.listeners, l'.id = lf.id → l' = lf)
    (hpf : lookupPool tree lf.id = .ok pf)
    (hpools : ∀ pr ∈ tree.pools, pr.1 ≠ lf.id →
      pr.2.id ≠ pf.id ∧ pr.2.monitorID ≠ pf.monitorID) :
    lf ∈ st'.tree.listeners ∧
    (lf.id, pf) ∈ st'.tree.pools ∧
    (∀ m ∈ tree.monitors, m.id = pf.monitorID → m ∈ st'.tree.monitors) ∧
    st'.trace.all (fun e => !(touches lf.id pf.id pf.monitorID e)) = true := by
  obtain ⟨st2, hpls, hst'⟩ := renameLoadBalancer_ok_elim h
  have hlguard : ∀ l' ∈ tree.listeners,
      listenerPfx.isPrefixOf l'.name = true → l'.id ≠ lf.id := by
    intro l' hl' hp' heq
    exact hpre ((huniq l' hl' heq) ▸ hp')
  obtain ⟨hsk, hB, hC, hD, hE⟩ :=
    processListeners_frame lf.id pf.id pf.monitorID hpls hlguard hpools
  subst hst'
  refine ⟨?_, ?_, ?_, ?_⟩
  · exact hB lf hmem rfl
  · exact hC (lf.id, pf) (lookupPool_ok_mem hpf) rfl
  · intro m hm hmid
    exact hD m hm hmid
  · have h0 : ((⟨tree, [Ev.listListeners tree.lb.id]⟩ : St).trace.all
        (fun e => !(touches lf.id pf.id pf.monitorID e))) = true := rfl
    have h2 := hE h0
    simp only [List.all_append, h2, Bool.true_and, List.all_cons, List.all_nil,
      Bool.and_true]
    rfl

/-- Witness for C5: a tree with a foreign listener (`external`, pool
`pool_ext`, monitor `monitor_ext`) next to a managed stale listener;
the cascade succeeds, renames the managed subtree and the LB, and the
foreign records survive verbatim with no update touching them. -/
theorem c5_witness :
    (⟨"lx".toList, "external".toList, []⟩ : Listener) ∈
      (renameLoadBalancer envOK
      ⟨⟨"lb1".toList, "kube_service_A_ns_n".toList, []⟩,
        [⟨"lx".toList, "external".toList, []⟩,
         ⟨"l1".toList, "listener_0_kube_service_A_ns_n".toList, []⟩],
        [("lx".toList, ⟨"px".toList, "pool_ext".toList, "mx".toList⟩),
         ("l1".toList, ⟨"p1".toList, "pool_0_kube_service_A_ns_n".toList, "m1".toList⟩)],
        [⟨"mx".toList, "monitor_ext".toList⟩,
         ⟨"m1".toList, "monitor_0_kube_service_A_ns_n".toList⟩]⟩
      "kube_service_B_ns_n".toList "B".toList).2.tree.listeners ∧
    ("lx".toList, (⟨"px".toList, "pool_ext".toList, "mx".toList⟩ : Pool)) ∈
      (renameLoadBalancer envOK
      ⟨⟨"lb1".toList, "kube_service_A_ns_n".toList, []⟩,
        [⟨"lx".toList, "external".toList, []⟩,
         ⟨"l1".toList, "listener_0_kube_service_A_ns_n".toList, []⟩],
        [("lx".toList, ⟨"px".toList, "pool_ext".toList, "mx".toList⟩),
         ("l1".toList, ⟨"p1".toList, "pool_0_kube_service_A_ns_n".toList, "m1".toList⟩)],
        [⟨"mx".toList, "monitor_ext".toList⟩,
         ⟨"m1".toList, "monitor_0_kube_service_A_ns_n".toList⟩]⟩
      "kube_service_B_ns_n".toList "B".toList).2.tree.pools ∧
    (∀ m ∈ (⟨⟨"lb1".toList, "kube_service_A_ns_n".toList, []⟩,
        [⟨"lx".toList, "external".toList, []⟩,
         ⟨"l1".toList, "listener_0_kube_service_A_ns_n".toList, []⟩],
        [("lx".toList, ⟨"px".toList, "pool_ext".toList, "mx".toList⟩),
         ("l1".toList, ⟨"p1".toList, "pool_0_kube_service_A_ns_n".toList, "m1".toList⟩)],
        [⟨"mx".toList, "monitor_ext".toList⟩,
         ⟨"m1".toList, "monitor_0_kube_service_A_ns_n".toList⟩]⟩ : RTree).monitors,
      m.id = "mx".toList → m ∈ (renameLoadBalancer envOK
      ⟨⟨"lb1".toList, "kube_service_A_ns_n".toList, []⟩,
        [⟨"lx".toList, "external".toList, []⟩,
         ⟨"l1".toList, "listener_0_kube_service_A_ns_n".toList, []⟩],
        [("lx".toList, ⟨"px".toList, "pool_ext".toList, "mx".toList⟩),
         ("l1".toList, ⟨"p1".toList, "pool_0_kube_service_A_ns_n".toList, "m1".toList⟩)],
        [⟨"mx".toList, "monitor_ext".toList⟩,
         ⟨"m1".toList, "monitor_0_kube_service_A_ns_n".toList⟩]⟩
      "kube_service_B_ns_n".toList "B".toList).2.tree.monitors) ∧
    ((renameLoadBalancer envOK
      ⟨⟨"lb1".toList, "kube_service_A_ns_n".toList, []⟩,
        [⟨"lx".toList, "external".toList, []⟩,
         ⟨"l1".toList, "listener_0_kube_service_A_ns_n".toList, []⟩],
        [("lx".toList, ⟨"px".toList, "pool_ext".toList, "mx".toList⟩),
         ("l1".toList, ⟨"p1".toList, "pool_0_kube_service_A_ns_n".toList, "m1".toList⟩)],
        [⟨"mx".toList, "monitor_ext".toList⟩,
         ⟨"m1".toList, "monitor_0_kube_service_A_ns_n".toList⟩]⟩
      "kube_service_B_ns_n".toList "B".toList).2.trace.all
      (fun e => !(touches "lx".toList "px".toList "mx".toList e)) = true) :=
  c5_foreign_listener_isolation envOK
    ⟨⟨"lb1".toList, "kube_service_A_ns_n".toList, []⟩,
        [⟨"lx".toList, "external".toList, []⟩,
         ⟨"l1".toList, "listener_0_kube_service_A_ns_n".toList, []⟩],
        [("lx".toList, ⟨"px".toList, "pool_ext".toList, "mx".toList⟩),
         ("l1".toList, ⟨"p1".toList, "pool_0_kube_service_A_ns_n".toList, "m1".toList⟩)],
        [⟨"mx".toList, "monitor_ext".toList⟩,
         ⟨"m1".toList, "monitor_0_kube_service_A_ns_n".toList⟩]⟩
    "kube_service_B_ns_n".toList "B".toList
    ⟨"lx".toList, "external".toList, []⟩
    ⟨"px".toList, "pool_ext".toList, "mx".toList⟩
    ⟨"lb1".toList, "kube_service_B_ns_n".toList, []⟩
    (renameLoadBalancer envOK
      ⟨⟨"lb1".toList, "kube_service_A_ns_n".toList, []⟩,
        [⟨"lx".toList, "external".toList, []⟩,
         ⟨"l1".toList, "listener_0_kube_service_A_ns_n".toList, []⟩],
        [("lx".toList, ⟨"px".toList, "pool_ext".toList, "mx".toList⟩),
         ("l1".toList, ⟨"p1".toList, "pool_0_kube_service_A_ns_n".toList, "m1".toList⟩)],
        [⟨"mx".toList, "monitor_ext".toList⟩,
         ⟨"m1".toList, "monitor_0_kube_service_A_ns_n".toList⟩]⟩
      "kube_service_B_ns_n".toList "B".toList).2
    (by decide) (by decide) (by decide) (by decide) (by decide) (by decide)

example : decomposeLBName .plain "kube_service_A_ns_n".toList =
    ("A".toList, "ns".toList, "n".toList) := by decide
example : decomposeLBName .plain "kube_service_A_B_ns_n".toList =
    ("A_B".toList, "ns".toList, "n".toList) := by decide
example : decomposeLBName .plain "kube_service_A_ns_n_extra".toList =
    ("A_ns".toList, "n".toList, "extra".toList) := by decide
example : decomposeLBName (.numbered listenerPfx)
    "listener_12_kube_service_A_ns_n".toList =
    ("A".toList, "ns".toList, "n".toList) := by decide
example : decomposeLBName .plain "occn_clusterA_ns1_svc1".toList = ([], [], []) := by
  decide
example : decomposeLBName .plain "xkube_service_A_ns_n".toList =
    ("A".toList, "ns".toList, "n".toList) := by decide
example : replaceClusterName "A".toList "B".toList "kube_service_A_ns_n".toList =
    "kube_service_B_ns_n".toList := by decide
example : replaceClusterName [] "B".toList "xy".toList = "Bxy".toList := by decide
example : rewriteTag "B".toList "team:payments".toList = "team:payments".toList := by
  decide
example : splitExportLocation "addr1:port,addr2:port:/location".toList =
    some ("addr1:port,addr2:port".toList, "/location".toList) := by decide
example : splitExportLocation "nodelim".toList = none := by decide
example : splitExportLocation ":loc".toList = none := by decide
